import Mathlib

/-!
# Active Directory logged-on user reporter: verification development

A shallow embedding of the pure and state-passing parts of `UserScanner`
(`main.cpp`, `ADHelper.cpp`, `ReportGenerator.cpp`) together with theorems
about them.

Conventions of the embedding:
* `std::wstring` is a list of characters (`WString`);
* `size_t` arithmetic is arithmetic modulo `2 ^ w`, `w` being the width of
  `size_t` on the target (32 or 64);
* the `int` statistics counters are integers reduced into the 32-bit signed
  range after every increment;
* platform calls (registry, SID resolution, code-page conversion) are
  parameters of the functions that use them.
-/

namespace UserScanner

/-- A wide string (`std::wstring`): a sequence of characters. -/
abbrev WString := List Char

/-! ## main.cpp: dividing the computers among the threads -/

/-- The batch size of `main`:
`size_t computersPerThread = (totalComputers + args.threadCount - 1) / args.threadCount;`
computed in `size_t`, that is modulo `2 ^ w` (the subtraction of 1 is the
addition of `2 ^ w - 1`). The thread count is the positive `int` that
`ParseArguments` leaves in `args.threadCount`. -/
def computersPerThread (w totalComputers threadCount : Nat) : Nat :=
  ((totalComputers + threadCount + (2 ^ w - 1)) % 2 ^ w) / threadCount

/-- The launch loop of `main`, `for (int t = 0; t < args.threadCount; ++t)`, from
iteration `t` on with `remaining = threadCount - t` iterations left. Each
iteration computes `startIdx = t * computersPerThread` and
`endIdx = min(startIdx + computersPerThread, totalComputers)` in `size_t`,
leaves the loop (`break`) when `startIdx >= totalComputers`, and otherwise
launches a worker on `(startIdx, endIdx)`. The result is the list of launched
ranges in launch order. -/
def launchLoop (w totalComputers perThread : Nat) : Nat → Nat → List (Nat × Nat)
  | 0, _ => []
  | remaining + 1, t =>
    let startIdx := (t * perThread) % 2 ^ w
    let endIdx := min ((startIdx + perThread) % 2 ^ w) totalComputers
    if startIdx ≥ totalComputers then []
    else (startIdx, endIdx) :: launchLoop w totalComputers perThread remaining (t + 1)

/-- The ranges `main` hands to `ProcessComputerBatch`, in launch order, for
`totalComputers` computers and `threadCount` threads. (With no computer at
all `main` returns before the loop; the loop itself then launches nothing
either.) -/
def launchedRanges (w totalComputers threadCount : Nat) : List (Nat × Nat) :=
  launchLoop w totalComputers (computersPerThread w totalComputers threadCount) threadCount 0

/-- The number of batches of size `B` needed for `N` items. -/
def batchCount (N B : Nat) : Nat := (N + B - 1) / B

/-! ## Standard-library string searches used by the sources -/

/-- The call `s.find(ch)` of `std::wstring`: the index of the first occurrence
of the character `ch` in `s`, `none` standing for `npos`. -/
def findChar (ch : Char) : WString → Option Nat
  | [] => none
  | c :: cs => if c = ch then some 0 else (findChar ch cs).map (· + 1)

/-- The call `s.find(pat)` of `std::wstring`: the least index at which `pat`
occurs in `s` as a contiguous substring, `none` standing for `npos`. -/
def findSub (pat : WString) : WString → Option Nat
  | [] => if pat.isPrefixOf [] then some 0 else none
  | c :: cs =>
    if pat.isPrefixOf (c :: cs) then some 0 else (findSub pat cs).map (· + 1)

/-! ## ADHelper.h / ADHelper.cpp -/

/-- The record `ComputerInfo` of `ADHelper.h`. -/
structure ComputerInfo where
  hostname : WString
  computerName : WString
  operatingSystem : WString
  deriving DecidableEq, Repr

/-- The record `UserInfo` of `ADHelper.h`. -/
structure UserInfo where
  sid : WString
  userName : WString
  domainName : WString
  deriving DecidableEq, Repr

/-- `UserInfo::GetFullName`: `domainName + L"\\" + userName`. -/
def UserInfo.GetFullName (u : UserInfo) : WString :=
  u.domainName ++ ['\\'] ++ u.userName

/-- One iteration of the loop of `ADHelper::DomainToDN` on the pair
`(dn, currentPart)`. -/
def DomainToDN.step (st : WString × WString) (ch : Char) : WString × WString :=
  if ch = '.' then
    if ¬ st.2.isEmpty then
      let dn := if ¬ st.1.isEmpty then st.1 ++ [','] else st.1
      (dn ++ (['D', 'C', '='] ++ st.2), [])
    else st
  else (st.1, st.2 ++ [ch])

/-- `ADHelper::DomainToDN`: the loop over the characters of `domain`, then the
last part. -/
def DomainToDN (domain : WString) : WString :=
  let st := domain.foldl DomainToDN.step ([], [])
  if ¬ st.2.isEmpty then
    let dn := if ¬ st.1.isEmpty then st.1 ++ [','] else st.1
    dn ++ (['D', 'C', '='] ++ st.2)
  else st.1

/-- `ADHelper::ExtractComputerName`: cut at `fqdn.find(L"." + domain)` when it is
found, else at `fqdn.find(L'.')` when it is found, else return `fqdn`. -/
def ExtractComputerName (fqdn domain : WString) : WString :=
  match findSub ('.' :: domain) fqdn with
  | some pos => fqdn.take pos
  | none =>
    match findChar '.' fqdn with
    | some pos => fqdn.take pos
    | none => fqdn

/-- The platform calls `ADHelper::GetLoggedOnUsers` makes. `RegConnectRegistryW`
maps a host name to `none` when the connection fails and otherwise to the
names `RegEnumKeyExW` returns for the indices `0, 1, ...` before its first
failure; `ConvertStringSidToSidW` parses a key name into a SID;
`LookupAccountSidW` resolves a SID on a host into `(userName, domainName)`. -/
structure WinApi (Sid : Type) where
  RegConnectRegistryW : WString → Option (List WString)
  ConvertStringSidToSidW : WString → Option Sid
  LookupAccountSidW : WString → Sid → Option (WString × WString)

/-- The `while (RegEnumKeyExW(hRemoteKey, index, ...) == ERROR_SUCCESS)` loop of
`ADHelper::GetLoggedOnUsers`, from `index` on, with the vector `users` built so
far. -/
def enumLoop {Sid : Type} (api : WinApi Sid) (fullyQualifiedName : WString)
    (keys : List WString) (index : Nat) (users : List UserInfo) : List UserInfo :=
  match h : keys[index]? with
  | none => users
  | some subKeyName =>
    have : keys.length - (index + 1) < keys.length - index := by
      have := (List.getElem?_eq_some_iff.1 h).1
      omega
    match api.ConvertStringSidToSidW subKeyName with
    | some pSid =>
      match api.LookupAccountSidW fullyQualifiedName pSid with
      | some (userName, domainName) =>
        enumLoop api fullyQualifiedName keys (index + 1)
          (users ++ [UserInfo.mk subKeyName userName domainName])
      | none => enumLoop api fullyQualifiedName keys (index + 1) users
    | none => enumLoop api fullyQualifiedName keys (index + 1) users
termination_by keys.length - index

/-- `ADHelper::GetLoggedOnUsers`. -/
def GetLoggedOnUsers {Sid : Type} (api : WinApi Sid) (fullyQualifiedName : WString) :
    List UserInfo :=
  match api.RegConnectRegistryW fullyQualifiedName with
  | none => []
  | some keys => enumLoop api fullyQualifiedName keys 0 []

/-! ## ReportGenerator.h / ReportGenerator.cpp -/

/-- The value an `int` holds after an arithmetic result `x`: `x` reduced into
the 32-bit two's-complement range. -/
def wrapInt (x : Int) : Int := (x + 2 ^ 31) % 2 ^ 32 - 2 ^ 31

/-- The state of a `ReportGenerator`: the bytes written to `m_outputFile` so
far, whether that stream is open and good (so that insertions take effect),
and the three `int` counters. -/
structure ReportGenerator where
  m_outputFile : List Nat
  is_open : Bool
  m_totalComputers : Int
  m_computersWithUsers : Int
  m_totalUsers : Int
  deriving DecidableEq, Repr

/-- The stream insertion `m_outputFile << bytes`: the bytes are appended when the
stream is open; on a stream that is not open nothing is written. -/
def ReportGenerator.write (rg : ReportGenerator) (bytes : List Nat) : ReportGenerator :=
  if rg.is_open then { rg with m_outputFile := rg.m_outputFile ++ bytes } else rg

/-- `ReportGenerator::WStringToUTF8`. The parameter `WideCharToMultiByte` is the
platform conversion of the null-terminated `wstr.c_str()` under `CP_UTF8`: the
bytes it produces, terminating zero included, its length being the size it
reports (no bytes when it fails). -/
def WStringToUTF8 (WideCharToMultiByte : WString → List Nat) (wstr : WString) : List Nat :=
  if wstr.isEmpty then []
  else
    let sizeNeeded := (WideCharToMultiByte wstr).length
    if sizeNeeded ≤ 0 then []
    else
      let result := WideCharToMultiByte wstr
      if ¬ result.isEmpty ∧ result.getLast? = some 0 then result.dropLast else result

/-- `ReportGenerator::EscapeCSV`. -/
def EscapeCSV (str : WString) : WString :=
  if (findChar ',' str).isSome ∨ (findChar '"' str).isSome ∨ (findChar '\n' str).isSome then
    let escaped := str.foldl
      (fun escaped ch => if ch = '"' then escaped ++ ['"', '"'] else escaped ++ [ch]) ['"']
    escaped ++ ['"']
  else str

/-- The line `AddEntry` builds for a computer without users. -/
def emptyLine (computer : ComputerInfo) : WString :=
  computer.hostname ++ [','] ++ EscapeCSV computer.operatingSystem ++ [','] ++ [','] ++ ['\n']

/-- The line `AddEntry` builds for one user of a computer. -/
def userLine (computer : ComputerInfo) (user : UserInfo) : WString :=
  computer.hostname ++ [','] ++ EscapeCSV computer.operatingSystem ++ [','] ++
    user.sid ++ [','] ++ ['"'] ++ user.GetFullName ++ ['"'] ++ ['\n']

/-- The body of the loop `for (const auto& user : users)` of `AddEntry`. -/
def AddEntry.step (conv : WString → List Nat) (computer : ComputerInfo)
    (rg : ReportGenerator) (user : UserInfo) : ReportGenerator :=
  let rg := { rg with m_totalUsers := wrapInt (rg.m_totalUsers + 1) }
  rg.write (WStringToUTF8 conv (userLine computer user))

/-- `ReportGenerator::AddEntry`, run under the lock as one step on the state
(`flush` does not change the bytes written). -/
def AddEntry (conv : WString → List Nat) (rg : ReportGenerator) (computer : ComputerInfo)
    (users : List UserInfo) : ReportGenerator :=
  let rg := { rg with m_totalComputers := wrapInt (rg.m_totalComputers + 1) }
  if users.isEmpty then
    rg.write (WStringToUTF8 conv (emptyLine computer))
  else
    let rg := { rg with m_computersWithUsers := wrapInt (rg.m_computersWithUsers + 1) }
    users.foldl (AddEntry.step conv computer) rg

/-- `GetTotalComputers`. -/
def ReportGenerator.GetTotalComputers (rg : ReportGenerator) : Int := rg.m_totalComputers

/-- `GetComputersWithUsers`. -/
def ReportGenerator.GetComputersWithUsers (rg : ReportGenerator) : Int :=
  rg.m_computersWithUsers

/-- `GetTotalUsers`. -/
def ReportGenerator.GetTotalUsers (rg : ReportGenerator) : Int := rg.m_totalUsers

/-! ## main.cpp: ParseArguments -/

/-- The record `CommandLineArgs` of `main.cpp`, with its default member
values. -/
structure CommandLineArgs where
  domain : WString := []
  domainController : WString := []
  outputFile : WString := []
  threadCount : Int := 100
  valid : Bool := false
  deriving DecidableEq, Repr

/-- The loop `for (int i = 1; i < argc; ++i)` of `ParseArguments` on the
arguments from `argv[i]` on. The result is the record and whether the loop
ran to its end (`false`: the function returned from inside the loop). The
parameter `stoi` is `std::stoi`, `none` standing for a thrown exception. -/
def parseLoop (stoi : List Char → Option Int) :
    List (List Char) → CommandLineArgs → CommandLineArgs × Bool
  | [], args => (args, true)
  | arg :: rest, args =>
    if arg = "-h".toList ∨ arg = "--help".toList then (args, false)
    else
      match rest with
      | [] => (args, false)
      | value :: rest' =>
        if arg = "-d".toList ∨ arg = "--domain".toList then
          parseLoop stoi rest' { args with domain := value }
        else if arg = "-dc".toList ∨ arg = "--dc".toList then
          parseLoop stoi rest' { args with domainController := value }
        else if arg = "-o".toList ∨ arg = "--output".toList then
          parseLoop stoi rest' { args with outputFile := value }
        else if arg = "-t".toList ∨ arg = "--threads".toList then
          match stoi value with
          | none => (args, false)
          | some parsed =>
            let args := { args with threadCount := parsed }
            let args :=
              if args.threadCount < 1 then { args with threadCount := 1 }
              else if args.threadCount > 500 then { args with threadCount := 500 }
              else args
            parseLoop stoi rest' args
        else (args, false)

/-- `ParseArguments`, `argv` being the whole argument vector (`argv[0]`
included). -/
def ParseArguments (stoi : List Char → Option Int) (argv : List (List Char)) :
    CommandLineArgs :=
  let args : CommandLineArgs := {}
  let looped := parseLoop stoi (argv.drop 1) args
  if ¬ looped.2 then looped.1
  else
    let args := looped.1
    if args.domain.isEmpty then args
    else if args.domainController.isEmpty then args
    else if args.outputFile.isEmpty then args
    else { args with valid := true }

/-! ## LDAPQuery.cpp and ADHelper::GetAllComputers -/

/-- The directory calls `LDAPQuery` makes, `Entry` being an entry of a search
result. `ldap_initW` tells whether a connection handle is obtained for a
domain controller; `ldap_set_option` and `ldap_bind_sW` tell whether the call
returns `LDAP_SUCCESS`; `ldap_search_sW` maps base DN, filter and attribute
names to `none` when it does not return `LDAP_SUCCESS` and otherwise to the
entries of the result in the order of `ldap_first_entry` / `ldap_next_entry`;
`ldap_get_valuesW` gives the values of an attribute of an entry (no value
when it returns null). -/
structure LdapApi (Entry : Type) where
  ldap_initW : WString → Bool
  ldap_set_option : Bool
  ldap_bind_sW : Bool
  ldap_search_sW : WString → WString → List WString → Option (List Entry)
  ldap_get_valuesW : Entry → WString → List WString

/-- The state of an `LDAPQuery`: whether `m_ldap` is a handle, and the entries
of `m_searchResult` when it is not null. -/
structure LDAPQuery (Entry : Type) where
  m_ldap : Bool
  m_searchResult : Option (List Entry)
  m_domainController : WString

/-- The constructor of `LDAPQuery`. -/
def LDAPQuery.construct (Entry : Type) (domainController : WString) : LDAPQuery Entry :=
  { m_ldap := false, m_searchResult := none, m_domainController := domainController }

/-- `LDAPQuery::AllocateWideString` as far as its callers see it: whether the
returned pointer is not null, which it is exactly for a non-empty string. -/
def AllocateWideString (str : WString) : Bool := !str.isEmpty

/-- `LDAPQuery::Initialize`: the new state and the returned flag. -/
def LDAPQuery.Initialize {Entry : Type} (api : LdapApi Entry) (q : LDAPQuery Entry) :
    LDAPQuery Entry × Bool :=
  let q := if q.m_ldap then { q with m_ldap := false } else q
  if ¬ AllocateWideString q.m_domainController then (q, false)
  else
    let q := { q with m_ldap := api.ldap_initW q.m_domainController }
    if ¬ q.m_ldap then (q, false)
    else if ¬ api.ldap_set_option then ({ q with m_ldap := false }, false)
    else (q, true)

/-- `LDAPQuery::Bind`: the returned flag (the state does not change). -/
def LDAPQuery.Bind {Entry : Type} (api : LdapApi Entry) (q : LDAPQuery Entry) : Bool :=
  if ¬ q.m_ldap then false
  else if ¬ api.ldap_bind_sW then false
  else true

/-- `LDAPQuery::Search`: the new state and the returned flag. The attribute
names handed to the directory are those for which `AllocateWideString`
returns a string. -/
def LDAPQuery.Search {Entry : Type} (api : LdapApi Entry) (q : LDAPQuery Entry)
    (baseDN filter : WString) (attributes : List WString) : LDAPQuery Entry × Bool :=
  if ¬ q.m_ldap then (q, false)
  else
    let q := { q with m_searchResult := none }
    if ¬ AllocateWideString baseDN ∨ ¬ AllocateWideString filter then (q, false)
    else
      let attrArray := attributes.filter AllocateWideString
      match api.ldap_search_sW baseDN filter attrArray with
      | none => (q, false)
      | some entries => ({ q with m_searchResult := some entries }, true)

/-- `LDAPQuery::GetAttributeValues`: the values of the attribute over all
entries, entry by entry. -/
def LDAPQuery.GetAttributeValues {Entry : Type} (api : LdapApi Entry) (q : LDAPQuery Entry)
    (attributeName : WString) : List WString :=
  match q.m_searchResult with
  | none => []
  | some entries =>
    if ¬ q.m_ldap then []
    else if ¬ AllocateWideString attributeName then []
    else entries.flatMap fun entry => api.ldap_get_valuesW entry attributeName

/-- The state of an `ADHelper`. -/
structure ADHelper where
  m_domain : WString
  m_domainController : WString
  m_baseDN : WString

/-- The constructor of `ADHelper`. -/
def ADHelper.construct (domain domainController : WString) : ADHelper :=
  { m_domain := domain, m_domainController := domainController,
    m_baseDN := DomainToDN domain }

/-- `ADHelper::CreateLDAPConnection`: the connected query, `none` for the null
pointer. -/
def ADHelper.CreateLDAPConnection {Entry : Type} (api : LdapApi Entry) (ad : ADHelper) :
    Option (LDAPQuery Entry) :=
  let ldap := (LDAPQuery.construct Entry ad.m_domainController).Initialize api
  if ¬ ldap.2 then none
  else if ¬ ldap.1.Bind api then none
  else some ldap.1

/-- The loop `for (size_t i = 0; i < hostnames.size(); ++i)` of
`ADHelper::GetAllComputers`, from index `i` on with `remaining` iterations
left and the vector `computers` built so far. -/
def combineLoop (domain : WString) (hostnames osSystems : List WString) :
    Nat → Nat → List ComputerInfo → List ComputerInfo
  | 0, _, computers => computers
  | remaining + 1, i, computers =>
    let info : ComputerInfo :=
      { hostname := hostnames.getD i [],
        computerName := ExtractComputerName (hostnames.getD i []) domain,
        operatingSystem :=
          if i < osSystems.length then osSystems.getD i [] else "Unknown".toList }
    combineLoop domain hostnames osSystems remaining (i + 1) (computers ++ [info])

/-- `ADHelper::GetAllComputers`. -/
def ADHelper.GetAllComputers {Entry : Type} (api : LdapApi Entry) (ad : ADHelper) :
    List ComputerInfo :=
  match ad.CreateLDAPConnection api with
  | none => []
  | some ldap =>
    let filter := "(&(objectClass=computer))".toList
    let attributes := ["dNSHostName".toList, "operatingSystem".toList]
    let found := ldap.Search api ad.m_baseDN filter attributes
    if ¬ found.2 then []
    else
      let hostnames := found.1.GetAttributeValues api "dNSHostName".toList
      let osSystems := found.1.GetAttributeValues api "operatingSystem".toList
      combineLoop ad.m_domain hostnames osSystems hostnames.length 0 []

/-! ## The sink over a run: constructor, `Initialize`, `ProcessComputerBatch` -/

/-- The constructor of `ReportGenerator`: the counters are 0 and the stream is
not open. -/
def ReportGenerator.construct : ReportGenerator :=
  { m_outputFile := [], is_open := false, m_totalComputers := 0,
    m_computersWithUsers := 0, m_totalUsers := 0 }

/-- `ReportGenerator::Initialize`: the new state and the returned flag. The
call `m_outputFile.open(...)` belongs to the library: `opened` is what
`is_open()` answers after it and `good` whether the stream then takes
insertions. On a closed stream a successful open gives `opened = good = true`
and truncates the file, and a failed open gives `opened = false`; on a stream
that is already open the call fails and sets the fail bit while the stream
stays open, `opened = true` and `good = false`: the function then goes on and
returns `true`, but neither the header nor any later line is written. -/
def ReportGenerator.Initialize (opened good : Bool) (rg : ReportGenerator) :
    ReportGenerator × Bool :=
  let rg := { rg with m_outputFile := if opened && good then [] else rg.m_outputFile,
                      is_open := opened && good }
  if ¬ opened then (rg, false)
  else
    let rg := rg.write [0xEF, 0xBB, 0xBF]
    let rg := rg.write ("Computer,OS,SID,Logon User\n".toList.map Char.toNat)
    (rg, true)

/-- The loop of `ProcessComputerBatch` from index `i` on with `remaining`
iterations left: the users of `computers[i]` are enumerated and the entry is
added to the report. (An index outside the vector, which `main` never
passes, ends the loop.) -/
def batchLoop {Sid : Type} (api : WinApi Sid) (conv : WString → List Nat)
    (computers : List ComputerInfo) : Nat → Nat → ReportGenerator → ReportGenerator
  | 0, _, reportGen => reportGen
  | remaining + 1, i, reportGen =>
    match computers[i]? with
    | none => reportGen
    | some computer =>
      let users := GetLoggedOnUsers api computer.hostname
      batchLoop api conv computers remaining (i + 1) (AddEntry conv reportGen computer users)

/-- `ProcessComputerBatch`, run alone on the sink. -/
def ProcessComputerBatch {Sid : Type} (api : WinApi Sid) (conv : WString → List Nat)
    (reportGen : ReportGenerator) (computers : List ComputerInfo) (startIdx endIdx : Nat) :
    ReportGenerator :=
  batchLoop api conv computers (endIdx - startIdx) startIdx reportGen

/-! ## Definitions that follow the words of the specification -/

/-- The rows of the report for one computer, as the specification words them:
one row `hostname,EscapeCSV(os),,` when there is no session, and otherwise one
row `hostname,EscapeCSV(os),sid,"domain\user"` per session, in the order of the
sessions. -/
def expectedRows (computer : ComputerInfo) (users : List UserInfo) : List WString :=
  if users = [] then
    [computer.hostname ++ [','] ++ EscapeCSV computer.operatingSystem ++ [',', ',']]
  else
    users.map fun u =>
      computer.hostname ++ [','] ++ EscapeCSV computer.operatingSystem ++ [','] ++
        u.sid ++ [','] ++ (['"'] ++ (u.domainName ++ ['\\'] ++ u.userName) ++ ['"'])

/-- The base path of a domain as the specification words it: split on `.`,
drop the empty segments, prefix each remaining segment with `DC=` and join
with `,`. -/
def domainToBasePath (domain : WString) : WString :=
  [','].intercalate
    (((domain.splitOn '.').filter fun seg => ¬ seg.isEmpty).map fun seg =>
      ['D', 'C', '='] ++ seg)

/-- The short name of a host as the specification words it: when `fqdn` ends
with `"." + domain`, the prefix before that suffix; else, when `fqdn` contains
a `.`, the prefix before the first `.`; else `fqdn` unchanged. -/
def extractShortName (fqdn domain : WString) : WString :=
  if ('.' :: domain).isSuffixOf fqdn then fqdn.take (fqdn.length - ('.' :: domain).length)
  else if '.' ∈ fqdn then fqdn.takeWhile (fun c => c ≠ '.')
  else fqdn

/-- A string with every `"` replaced by two `"`. -/
def doubleQuotes (s : WString) : WString :=
  s.flatMap fun c => if c = '"' then ['"', '"'] else [c]

/-- The escaping rule as the specification words it: a value that contains a
comma, a double quote or a newline is wrapped in quotes with its internal
quotes doubled; any other value is unchanged. -/
def escapeField (s : WString) : WString :=
  if ',' ∈ s ∨ '"' ∈ s ∨ '\n' ∈ s then ['"'] ++ doubleQuotes s ++ ['"'] else s

/-- The rows of the report for one computer if every field followed the
escaping rule, the identity column being always quote-wrapped. -/
def fullyEscapedRows (computer : ComputerInfo) (users : List UserInfo) : List WString :=
  if users = [] then
    [escapeField computer.hostname ++ [','] ++ escapeField computer.operatingSystem ++
      [','] ++ escapeField [] ++ [','] ++ escapeField []]
  else
    users.map fun u =>
      escapeField computer.hostname ++ [','] ++ escapeField computer.operatingSystem ++
        [','] ++ escapeField u.sid ++ [','] ++
          (['"'] ++ doubleQuotes (u.domainName ++ ['\\'] ++ u.userName) ++ ['"'])

/-- The rows of the report for one computer as the code writes them: the
operating system follows the escaping rule, the host name and the raw
identifier are written as they are, and the identity is written between
quotes as it is. -/
def osEscapedRows (computer : ComputerInfo) (users : List UserInfo) : List WString :=
  if users = [] then
    [computer.hostname ++ [','] ++ escapeField computer.operatingSystem ++ [','] ++ [] ++
      [','] ++ []]
  else
    users.map fun u =>
      computer.hostname ++ [','] ++ escapeField computer.operatingSystem ++
        [','] ++ u.sid ++ [','] ++ (['"'] ++ (u.domainName ++ ['\\'] ++ u.userName) ++ ['"'])

/-- The resolution of one enumerated key as the specification words it: the
entry is produced when the key parses as a SID and the lookup of that SID on
the host succeeds, and it carries the key as raw identifier with the resolved
account and domain; otherwise there is no entry. -/
def resolveEntry {Sid : Type} (api : WinApi Sid) (host key : WString) : Option UserInfo :=
  match api.ConvertStringSidToSidW key with
  | none => none
  | some sid =>
    match api.LookupAccountSidW host sid with
    | none => none
    | some (account, domain) => some { sid := key, userName := account, domainName := domain }

/-- The result in which no enumerated entry is discarded: an entry whose
resolution failed is kept with empty account and domain. -/
def keepAllEntries {Sid : Type} (api : WinApi Sid) (host : WString) (keys : List WString) :
    List UserInfo :=
  keys.map fun key =>
    match resolveEntry api host key with
    | some u => u
    | none => { sid := key, userName := [], domainName := [] }

/-- A sequence of `AddEntry` calls applied to a sink, one after the other. -/
def runEntries (conv : WString → List Nat) (rg : ReportGenerator)
    (calls : List (ComputerInfo × List UserInfo)) : ReportGenerator :=
  calls.foldl (fun rg call => AddEntry conv rg call.1 call.2) rg

/-- The data rows a sequence of `AddEntry` calls hands to the stream, each with
its newline, call by call. -/
def writtenLines (calls : List (ComputerInfo × List UserInfo)) : List WString :=
  calls.flatMap fun call => (expectedRows call.1 call.2).map fun row => row ++ ['\n']

/-- The clamp of the worker count as the specification words it: a value below
1 becomes 1, a value above 500 becomes 500, a value in `[1, 500]` is kept. -/
def clampThreads (n : Int) : Int :=
  if n < 1 then 1 else if n > 500 then 500 else n

/-- Whether an argument is the thread flag. -/
def isThreadFlag (arg : List Char) : Prop :=
  arg = "-t".toList ∨ arg = "--threads".toList

/-- The UTF-8 encoding of one character. -/
def utf8Char (c : Char) : List Nat :=
  if c.toNat < 0x80 then [c.toNat]
  else if c.toNat < 0x800 then [0xC0 + c.toNat / 0x40, 0x80 + c.toNat % 0x40]
  else if c.toNat < 0x10000 then
    [0xE0 + c.toNat / 0x1000, 0x80 + c.toNat / 0x40 % 0x40, 0x80 + c.toNat % 0x40]
  else
    [0xF0 + c.toNat / 0x40000, 0x80 + c.toNat / 0x1000 % 0x40,
      0x80 + c.toNat / 0x40 % 0x40, 0x80 + c.toNat % 0x40]

/-- The UTF-8 encoding of a text. -/
def utf8Bytes (s : WString) : List Nat := s.flatMap utf8Char

/-- What the platform documents for `WideCharToMultiByte` under `CP_UTF8` on a
null-terminated string: the UTF-8 bytes of the characters before the first
zero character, then the terminating zero. -/
def platformConv (line : WString) : List Nat :=
  utf8Bytes (line.takeWhile fun c => c ≠ Char.ofNat 0) ++ [0]

/-- No string of a computer record or of its sessions contains the character
`ch`. -/
def fieldsAvoid (ch : Char) (computer : ComputerInfo) (users : List UserInfo) : Prop :=
  ch ∉ computer.hostname ∧ ch ∉ computer.operatingSystem ∧
    ∀ u ∈ users, ch ∉ u.sid ∧ ch ∉ u.userName ∧ ch ∉ u.domainName

/-! ## Sample values used to instantiate the theorems -/

/-- A conversion for sample runs: one byte per character, then the terminating
zero. -/
def sampleConv (s : WString) : List Nat := s.map Char.toNat ++ [0]

/-- An open sink with nothing written and all counters zero. -/
def sampleSink : ReportGenerator :=
  { m_outputFile := [], is_open := true, m_totalComputers := 0,
    m_computersWithUsers := 0, m_totalUsers := 0 }

/-- A sample computer record. -/
def samplePC : ComputerInfo :=
  { hostname := ['P', 'C', '1', '.', 'a', '.', 'b'], computerName := ['P', 'C', '1'],
    operatingSystem := ['W', ',', 'X'] }

/-- Two sample sessions. -/
def sampleUsers : List UserInfo :=
  [{ sid := ['S', '-', '1'], userName := ['u'], domainName := ['D'] },
   { sid := ['S', '-', '2'], userName := ['v'], domainName := ['E'] }]

/-- A computer whose host name contains a comma. -/
def commaHost : ComputerInfo :=
  { hostname := ['a', ',', 'b'], computerName := ['a'], operatingSystem := ['W'] }

/-- A session whose raw identifier contains a comma. -/
def commaSid : UserInfo := { sid := ['S', ',', '1'], userName := ['u'], domainName := ['D'] }

/-- A session whose account name contains a double quote. -/
def quoteUser : UserInfo := { sid := ['S'], userName := ['u', '"'], domainName := ['D'] }

/-- A sample platform with SIDs as numbers: host `PC1` connects and has the keys
`S-1`, `.DEFAULT`, `S-2`, `S-3`; `.DEFAULT` does not parse as a SID, the
lookup of `S-2` fails, `S-1` resolves to `D\u` and `S-3` to `E\v`; no other
host connects. -/
def sampleApi : WinApi Nat :=
  { RegConnectRegistryW := fun host =>
      if host = "PC1".toList then
        some ["S-1".toList, ".DEFAULT".toList, "S-2".toList, "S-3".toList]
      else none
    ConvertStringSidToSidW := fun key =>
      if key = "S-1".toList then some 1
      else if key = "S-2".toList then some 2
      else if key = "S-3".toList then some 3
      else none
    LookupAccountSidW := fun _ sid =>
      if sid = 1 then some ("u".toList, "D".toList)
      else if sid = 3 then some ("v".toList, "E".toList)
      else none }

/-- Directory entries for sample runs: the host name and the operating
systems recorded for a machine. -/
structure SampleEntry where
  dns : WString
  os : List WString

/-- A sample directory: every call succeeds and the search returns three
machines, the last one without an operating system. -/
def sampleLdap : LdapApi SampleEntry :=
  { ldap_initW := fun _ => true
    ldap_set_option := true
    ldap_bind_sW := true
    ldap_search_sW := fun _ _ _ =>
      some [{ dns := "PC1.example.com".toList, os := ["Windows 11".toList] },
            { dns := "PC2.example.com".toList, os := ["Windows 10, Pro".toList] },
            { dns := "PC3".toList, os := [] }]
    ldap_get_valuesW := fun entry attr =>
      if attr = "dNSHostName".toList then [entry.dns]
      else if attr = "operatingSystem".toList then entry.os
      else [] }

/-- A sample directory whose bind is rejected. -/
def rejectingLdap : LdapApi SampleEntry := { sampleLdap with ldap_bind_sW := false }

/-- The helper for the domain `example.com`. -/
def sampleAD : ADHelper := ADHelper.construct "example.com".toList "dc.example.com".toList

/-- A sample platform for a fleet of three hosts: `A` connects and has two
keys that resolve, `B` connects and has no key, and no other host connects. -/
def fleetApi : WinApi Nat :=
  { RegConnectRegistryW := fun host =>
      if host = "A".toList then some ["S-1".toList, "S-3".toList]
      else if host = "B".toList then some []
      else none
    ConvertStringSidToSidW := sampleApi.ConvertStringSidToSidW
    LookupAccountSidW := sampleApi.LookupAccountSidW }

/-- The inventory of the fleet: hosts `A`, `B` and `C`. -/
def fleet : List ComputerInfo :=
  [{ hostname := "A".toList, computerName := "A".toList, operatingSystem := "W".toList },
   { hostname := "B".toList, computerName := "B".toList, operatingSystem := "W".toList },
   { hostname := "C".toList, computerName := "C".toList, operatingSystem := "W".toList }]

/-- The calls a scan of the fleet makes: each host with its enumerated users. -/
def fleetCalls : List (ComputerInfo × List UserInfo) :=
  fleet.map fun computer => (computer, GetLoggedOnUsers fleetApi computer.hostname)

/-- A decimal reader for sample runs: an optional minus sign followed by
digits; anything else throws. -/
def sampleStoi (s : List Char) : Option Int :=
  match s with
  | '-' :: ds =>
    if ds ≠ [] ∧ ds.all Char.isDigit then
      some (-(ds.foldl (fun n c => 10 * n + (c.toNat - 48)) 0 : Nat))
    else none
  | ds =>
    if ds ≠ [] ∧ ds.all Char.isDigit then
      some (ds.foldl (fun n c => 10 * n + (c.toNat - 48)) 0 : Nat)
    else none

/-! # Theorems -/

/-! ## Partition of the index range -/

/-- The batch size without wrap-around is the rounded-up quotient: it is the
least `B` with `N ≤ W * B`. -/
theorem computersPerThread_spec (w N W : Nat) (hW1 : 1 ≤ W) (hN : N + W ≤ 2 ^ w) :
    computersPerThread w N W = (N + W - 1) / W ∧
    N ≤ W * computersPerThread w N W ∧ W * computersPerThread w N W < N + W := by
  have hlt : N + W - 1 < 2 ^ w := by omega
  have hB : computersPerThread w N W = (N + W - 1) / W := by
    unfold computersPerThread
    have e : N + W + (2 ^ w - 1) = (N + W - 1) + 2 ^ w := by omega
    rw [e, Nat.add_mod_right, Nat.mod_eq_of_lt hlt]
  have hWpos : 0 < W := hW1
  refine ⟨hB, ?_, ?_⟩
  · rw [hB]
    have h1 := Nat.div_add_mod (N + W - 1) W
    have h2 := Nat.mod_lt (N + W - 1) hWpos
    omega
  · rw [hB]
    have h1 := Nat.mul_div_le (N + W - 1) W
    omega

theorem lt_batchCount_iff (N B t : Nat) (h0 : B = 0 → N = 0) :
    t < batchCount N B ↔ t * B < N := by
  unfold batchCount
  rcases Nat.eq_zero_or_pos B with hB | hB
  · have := h0 hB
    subst hB
    simp [this]
  · rw [Nat.lt_iff_add_one_le, Nat.le_div_iff_mul_le hB, Nat.add_mul]
    omega

/-- The launch loop, when no `size_t` product wraps, launches exactly the
workers `t, t+1, ..., batchCount - 1`. -/
theorem launchLoop_eq (w N B : Nat) (hB0 : B = 0 → N = 0) :
    ∀ (remaining t : Nat), (t + remaining) * B < 2 ^ w → batchCount N B ≤ t + remaining →
      launchLoop w N B remaining t =
        (List.range' t (batchCount N B - t)).map (fun k => (k * B, min (k * B + B) N)) := by
  intro remaining
  induction remaining with
  | zero =>
    intro t _ hK
    have : batchCount N B - t = 0 := by omega
    simp [launchLoop, this]
  | succ r ih =>
    intro t hlt hK
    have hmul : (t + 1) * B ≤ (t + (r + 1)) * B := Nat.mul_le_mul_right B (by omega)
    have h1 : t * B + B < 2 ^ w := by
      have : (t + 1) * B = t * B + B := by ring
      omega
    have h0 : t * B < 2 ^ w := by omega
    simp only [launchLoop, Nat.mod_eq_of_lt h0, Nat.mod_eq_of_lt h1]
    by_cases hge : t * B ≥ N
    · have hnot : ¬ t < batchCount N B := by
        rw [lt_batchCount_iff N B t hB0]; omega
      have : batchCount N B - t = 0 := by omega
      simp [hge, this]
    · have hlt2 : t < batchCount N B := by
        rw [lt_batchCount_iff N B t hB0]; omega
      have hsplit : batchCount N B - t = (batchCount N B - (t + 1)) + 1 := by omega
      have hih := ih (t + 1) (by rw [show t + 1 + r = t + (r + 1) by omega]; exact hlt)
        (by omega)
      rw [if_neg hge, hih, hsplit, List.range'_succ]
      simp

/-- The launched ranges are the batches `0, ..., batchCount - 1`. -/
theorem launchedRanges_eq (w N W : Nat) (hW1 : 1 ≤ W) (hN : N + W ≤ 2 ^ w) :
    launchedRanges w N W =
      (List.range (batchCount N (computersPerThread w N W))).map
        (fun k => (k * computersPerThread w N W,
          min (k * computersPerThread w N W + computersPerThread w N W) N)) ∧
    batchCount N (computersPerThread w N W) ≤ W := by
  obtain ⟨_, hlo, hhi⟩ := computersPerThread_spec w N W hW1 hN
  have hB0 : computersPerThread w N W = 0 → N = 0 := by
    intro h
    rw [h] at hlo
    omega
  have hK : batchCount N (computersPerThread w N W) ≤ W := by
    by_contra hcon
    have : W < batchCount N (computersPerThread w N W) := by omega
    rw [lt_batchCount_iff N _ W hB0] at this
    omega
  refine ⟨?_, hK⟩
  unfold launchedRanges
  rw [launchLoop_eq w N _ hB0 W 0 (by rw [Nat.zero_add]; omega) (by omega)]
  simp [List.range_eq_range']

/-- Reading the `t`-th launched range. -/
theorem launchedRanges_getElem? (w N W : Nat) (hW1 : 1 ≤ W) (hN : N + W ≤ 2 ^ w) (t : Nat) :
    (launchedRanges w N W)[t]? =
      if t * computersPerThread w N W < N then
        some (t * computersPerThread w N W,
          min (t * computersPerThread w N W + computersPerThread w N W) N)
      else none := by
  obtain ⟨_, hlo, _⟩ := computersPerThread_spec w N W hW1 hN
  have hB0 : computersPerThread w N W = 0 → N = 0 := by
    intro h
    rw [h] at hlo
    omega
  rw [(launchedRanges_eq w N W hW1 hN).1]
  by_cases h : t * computersPerThread w N W < N
  · have hlt : t < batchCount N (computersPerThread w N W) :=
      (lt_batchCount_iff N _ t hB0).2 h
    simp [h, List.getElem?_range hlt]
  · have hlt : ¬ t < batchCount N (computersPerThread w N W) := fun hc =>
      h ((lt_batchCount_iff N _ t hB0).1 hc)
    rw [if_neg h, List.getElem?_eq_none]
    simpa using hlt

/-- C1. For every host count `N` and worker count `W` with `1 ≤ W ≤ 500`
(`N` being a `size_t` value small enough that `N + 500` does not wrap), with
`B = ceil(N / W)`, the ranges `main` launches are `[t*B, min(t*B + B, N))` for
`t = 0, 1, ...` up to the first `t` with `t*B ≥ N`; at most `W` are launched;
each is non-empty and inside `[0, N)`; every index below `N` lies in exactly
one of them; consecutive ranges are contiguous, earlier ranges end before
later ones start, the first starts at `0` and the last ends at `N`. -/
theorem launchedRanges_partition (w N W : Nat) (hW1 : 1 ≤ W) (hW : W ≤ 500)
    (hN : N + 500 ≤ 2 ^ w) :
    (N ≤ W * computersPerThread w N W ∧ W * computersPerThread w N W < N + W) ∧
    (launchedRanges w N W).length ≤ W ∧
    (∀ t, t < (launchedRanges w N W).length ↔ t * computersPerThread w N W < N) ∧
    (∀ t, t < (launchedRanges w N W).length →
      (launchedRanges w N W)[t]? =
        some (t * computersPerThread w N W,
          min (t * computersPerThread w N W + computersPerThread w N W) N)) ∧
    (∀ r ∈ launchedRanges w N W, r.1 < r.2 ∧ r.2 ≤ N) ∧
    (∀ i, i < N → ∃! t : Nat, ∃ r : Nat × Nat, (launchedRanges w N W)[t]? = some r ∧ r.1 ≤ i ∧ i < r.2) ∧
    (∀ (t : Nat) (r r' : Nat × Nat), (launchedRanges w N W)[t]? = some r →
      (launchedRanges w N W)[t + 1]? = some r' → r'.1 = r.2) ∧
    (∀ (s t : Nat) (r r' : Nat × Nat), s < t → (launchedRanges w N W)[s]? = some r →
      (launchedRanges w N W)[t]? = some r' → r.2 ≤ r'.1) ∧
    (∀ r, (launchedRanges w N W)[0]? = some r → r.1 = 0) ∧
    (∀ r, (launchedRanges w N W).getLast? = some r → r.2 = N) := by
  have hN' : N + W ≤ 2 ^ w := by omega
  obtain ⟨_, hlo, hhi⟩ := computersPerThread_spec w N W hW1 hN'
  obtain ⟨hrs, hK⟩ := launchedRanges_eq w N W hW1 hN'
  have hget := launchedRanges_getElem? w N W hW1 hN'
  generalize hBdef : computersPerThread w N W = B at *
  generalize hrsdef : launchedRanges w N W = rs at *
  have hB0 : B = 0 → N = 0 := by
    intro h
    rw [h] at hlo
    omega
  have hlen : rs.length = batchCount N B := by rw [hrs]; simp
  have hiff : ∀ t, t < rs.length ↔ t * B < N := by
    intro t
    rw [hlen]
    exact lt_batchCount_iff N B t hB0
  have hsome : ∀ t r, rs[t]? = some r → t * B < N ∧ r = (t * B, min (t * B + B) N) := by
    intro t r h
    rw [hget t] at h
    by_cases hc : t * B < N
    · rw [if_pos hc] at h
      exact ⟨hc, (Option.some.inj h).symm⟩
    · rw [if_neg hc] at h
      exact absurd h (by simp)
  have hBpos : 0 < N → 0 < B := by
    intro h
    rcases Nat.eq_zero_or_pos B with h0 | h0
    · have := hB0 h0
      omega
    · exact h0
  refine ⟨⟨hlo, hhi⟩, by rw [hlen]; exact hK, hiff, ?_, ?_, ?_, ?_, ?_, ?_, ?_⟩
  · intro t ht
    rw [hget t, if_pos ((hiff t).1 ht)]
  · intro r hr
    obtain ⟨t, ht⟩ := List.getElem?_of_mem hr
    obtain ⟨hlt, rfl⟩ := hsome t r ht
    have := hBpos (by omega)
    simp only
    omega
  · intro i hi
    have hB := hBpos (by omega)
    have hdm := Nat.div_add_mod i B
    have hml := Nat.mod_lt i hB
    have hcomm : B * (i / B) = i / B * B := Nat.mul_comm _ _
    refine ⟨i / B, ⟨(i / B * B, min (i / B * B + B) N), ?_, ?_, ?_⟩, ?_⟩
    · rw [hget, if_pos (by omega)]
    · simp only
      omega
    · simp only
      omega
    · rintro t ⟨r, hr, h1, h2⟩
      obtain ⟨_, rfl⟩ := hsome t r hr
      simp only at h1 h2
      have h3 : t * B + B = (t + 1) * B := by ring
      have hle : t ≤ i / B := (Nat.le_div_iff_mul_le hB).2 h1
      have hlt : i / B < t + 1 := (Nat.div_lt_iff_lt_mul hB).2 (by omega)
      omega
  · intro t r r' hr hr'
    obtain ⟨_, rfl⟩ := hsome t r hr
    obtain ⟨h1, rfl⟩ := hsome (t + 1) r' hr'
    have h3 : (t + 1) * B = t * B + B := by ring
    simp only
    omega
  · intro s t r r' hst hr hr'
    obtain ⟨_, rfl⟩ := hsome s r hr
    obtain ⟨h1, rfl⟩ := hsome t r' hr'
    have h3 : (s + 1) * B = s * B + B := by ring
    have h4 : (s + 1) * B ≤ t * B := Nat.mul_le_mul_right B hst
    simp only
    omega
  · intro r hr
    obtain ⟨_, rfl⟩ := hsome 0 r hr
    simp
  · intro r hr
    rw [List.getLast?_eq_getElem?] at hr
    obtain ⟨h1, rfl⟩ := hsome _ r hr
    have hnot : ¬ (rs.length - 1 + 1) * B < N := by
      rw [← hiff]
      omega
    have h3 : (rs.length - 1 + 1) * B = (rs.length - 1) * B + B := by ring
    simp only
    omega

/-- C1 at a concrete input: 10 computers and 4 threads on a 64-bit target. -/
theorem launchedRanges_partition_witness :
    launchedRanges 64 10 4 = [(0, 3), (3, 6), (6, 9), (9, 10)] ∧
    ((10 ≤ 4 * computersPerThread 64 10 4 ∧ 4 * computersPerThread 64 10 4 < 10 + 4) ∧
    (launchedRanges 64 10 4).length ≤ 4 ∧
    (∀ t, t < (launchedRanges 64 10 4).length ↔ t * computersPerThread 64 10 4 < 10) ∧
    (∀ t, t < (launchedRanges 64 10 4).length →
      (launchedRanges 64 10 4)[t]? =
        some (t * computersPerThread 64 10 4,
          min (t * computersPerThread 64 10 4 + computersPerThread 64 10 4) 10)) ∧
    (∀ r ∈ launchedRanges 64 10 4, r.1 < r.2 ∧ r.2 ≤ 10) ∧
    (∀ i, i < 10 → ∃! t : Nat, ∃ r : Nat × Nat, (launchedRanges 64 10 4)[t]? = some r ∧ r.1 ≤ i ∧ i < r.2) ∧
    (∀ (t : Nat) (r r' : Nat × Nat), (launchedRanges 64 10 4)[t]? = some r →
      (launchedRanges 64 10 4)[t + 1]? = some r' → r'.1 = r.2) ∧
    (∀ (s t : Nat) (r r' : Nat × Nat), s < t → (launchedRanges 64 10 4)[s]? = some r →
      (launchedRanges 64 10 4)[t]? = some r' → r.2 ≤ r'.1) ∧
    (∀ r, (launchedRanges 64 10 4)[0]? = some r → r.1 = 0) ∧
    (∀ r, (launchedRanges 64 10 4).getLast? = some r → r.2 = 10)) :=
  ⟨by decide, launchedRanges_partition 64 10 4 (by decide) (by decide) (by norm_num)⟩

/-! ## The report sink: rows and counters -/

theorem wrapInt_of_range (x : Int) (hlo : -2 ^ 31 ≤ x) (hhi : x < 2 ^ 31) : wrapInt x = x := by
  unfold wrapInt
  norm_num at hlo hhi ⊢
  omega

theorem write_output (rg : ReportGenerator) (bytes : List Nat) :
    (rg.write bytes).m_outputFile = (if rg.is_open then rg.m_outputFile ++ bytes
      else rg.m_outputFile) ∧
    (rg.write bytes).is_open = rg.is_open ∧
    (rg.write bytes).m_totalComputers = rg.m_totalComputers ∧
    (rg.write bytes).m_computersWithUsers = rg.m_computersWithUsers ∧
    (rg.write bytes).m_totalUsers = rg.m_totalUsers := by
  unfold ReportGenerator.write
  cases h : rg.is_open <;> simp [h]

/-- The loop over the users appends one converted line per user, in order, to
an open stream, and leaves the stream open. -/
theorem foldl_step_output (conv : WString → List Nat) (computer : ComputerInfo) :
    ∀ (users : List UserInfo) (rg : ReportGenerator), rg.is_open = true →
      (users.foldl (AddEntry.step conv computer) rg).m_outputFile =
        rg.m_outputFile ++
          (users.map fun u => WStringToUTF8 conv (userLine computer u)).flatten := by
  intro users
  induction users with
  | nil => intro rg _; simp
  | cons u us ih =>
    intro rg hopen
    rw [List.foldl_cons, ih]
    · simp [AddEntry.step, ReportGenerator.write, hopen]
    · simp [AddEntry.step, ReportGenerator.write, hopen]

/-- The loop over the users writes nothing to a stream that is not open. -/
theorem foldl_step_closed (conv : WString → List Nat) (computer : ComputerInfo) :
    ∀ (users : List UserInfo) (rg : ReportGenerator), rg.is_open = false →
      (users.foldl (AddEntry.step conv computer) rg).m_outputFile = rg.m_outputFile := by
  intro users
  induction users with
  | nil => intro rg _; simp
  | cons u us ih =>
    intro rg hopen
    rw [List.foldl_cons, ih]
    · simp [AddEntry.step, ReportGenerator.write, hopen]
    · simp [AddEntry.step, ReportGenerator.write, hopen]

/-- The loop over the users changes only `m_totalUsers`, by one per user. -/
theorem foldl_step_counters (conv : WString → List Nat) (computer : ComputerInfo) :
    ∀ (users : List UserInfo) (rg : ReportGenerator), -2 ^ 31 ≤ rg.m_totalUsers →
      rg.m_totalUsers + users.length < 2 ^ 31 →
      (users.foldl (AddEntry.step conv computer) rg).m_totalUsers =
        rg.m_totalUsers + users.length ∧
      (users.foldl (AddEntry.step conv computer) rg).m_totalComputers = rg.m_totalComputers ∧
      (users.foldl (AddEntry.step conv computer) rg).m_computersWithUsers =
        rg.m_computersWithUsers := by
  intro users
  induction users with
  | nil => intro rg _ _; simp
  | cons u us ih =>
    intro rg hlo hhi
    have hlen : ((u :: us).length : Int) = (us.length : Int) + 1 := by simp
    rw [hlen] at hhi
    have hw : wrapInt (rg.m_totalUsers + 1) = rg.m_totalUsers + 1 :=
      wrapInt_of_range _ (by omega) (by omega)
    have hs : (AddEntry.step conv computer rg u).m_totalUsers = rg.m_totalUsers + 1 ∧
        (AddEntry.step conv computer rg u).m_totalComputers = rg.m_totalComputers ∧
        (AddEntry.step conv computer rg u).m_computersWithUsers =
          rg.m_computersWithUsers := by
      unfold AddEntry.step
      simp only [(write_output _ _).2.2.1, (write_output _ _).2.2.2.1,
        (write_output _ _).2.2.2.2, hw]
      exact ⟨trivial, trivial, trivial⟩
    obtain ⟨h1, h2, h3⟩ := ih (AddEntry.step conv computer rg u)
      (by rw [hs.1]; omega) (by rw [hs.1]; omega)
    rw [List.foldl_cons, h1, h2, h3, hs.1, hs.2.1, hs.2.2, hlen]
    exact ⟨by ring, rfl, rfl⟩

/-- The bytes `AddEntry` appends to an open sink. -/
theorem AddEntry_output (conv : WString → List Nat) (rg : ReportGenerator)
    (computer : ComputerInfo) (users : List UserInfo) (hopen : rg.is_open = true) :
    (AddEntry conv rg computer users).m_outputFile =
      rg.m_outputFile ++
        (if users = [] then WStringToUTF8 conv (emptyLine computer)
         else (users.map fun u => WStringToUTF8 conv (userLine computer u)).flatten) := by
  unfold AddEntry
  cases users with
  | nil => simp [ReportGenerator.write, hopen]
  | cons u us =>
    have h := foldl_step_output conv computer (u :: us)
      { rg with m_totalComputers := wrapInt (rg.m_totalComputers + 1),
                m_computersWithUsers := wrapInt (rg.m_computersWithUsers + 1) } hopen
    simp only [List.isEmpty_cons, Bool.false_eq_true, if_false]
    rw [h]
    simp

/-- C3. On a sink whose counters are `int` values with room for the
increments, `AddEntry` with an empty session list adds exactly 1 to the total
of computers and leaves the other two counters unchanged; with a non-empty
session list it adds exactly 1 to the total of computers, exactly 1 to the
computers with users, and exactly the number of sessions to the total of
users. -/
theorem AddEntry_counters (conv : WString → List Nat) (rg : ReportGenerator)
    (computer : ComputerInfo) (users : List UserInfo)
    (hc : -2 ^ 31 ≤ rg.m_totalComputers ∧ rg.m_totalComputers + 1 < 2 ^ 31)
    (hw : -2 ^ 31 ≤ rg.m_computersWithUsers ∧ rg.m_computersWithUsers + 1 < 2 ^ 31)
    (hu : -2 ^ 31 ≤ rg.m_totalUsers ∧ rg.m_totalUsers + users.length < 2 ^ 31) :
    (users = [] →
      (AddEntry conv rg computer users).GetTotalComputers = rg.GetTotalComputers + 1 ∧
      (AddEntry conv rg computer users).GetComputersWithUsers = rg.GetComputersWithUsers ∧
      (AddEntry conv rg computer users).GetTotalUsers = rg.GetTotalUsers) ∧
    (users ≠ [] →
      (AddEntry conv rg computer users).GetTotalComputers = rg.GetTotalComputers + 1 ∧
      (AddEntry conv rg computer users).GetComputersWithUsers =
        rg.GetComputersWithUsers + 1 ∧
      (AddEntry conv rg computer users).GetTotalUsers = rg.GetTotalUsers + users.length) := by
  have h1 : wrapInt (rg.m_totalComputers + 1) = rg.m_totalComputers + 1 :=
    wrapInt_of_range _ (by omega) hc.2
  have h2 : wrapInt (rg.m_computersWithUsers + 1) = rg.m_computersWithUsers + 1 :=
    wrapInt_of_range _ (by omega) hw.2
  unfold ReportGenerator.GetTotalComputers ReportGenerator.GetComputersWithUsers
    ReportGenerator.GetTotalUsers
  constructor
  · intro hnil
    subst hnil
    unfold AddEntry
    simp only [List.isEmpty_nil, if_true, (write_output _ _).2.2.1,
      (write_output _ _).2.2.2.1, (write_output _ _).2.2.2.2, h1]
    exact ⟨trivial, trivial, trivial⟩
  · intro hne
    have hemp : users.isEmpty = false := by
      cases users with
      | nil => exact absurd rfl hne
      | cons _ _ => rfl
    obtain ⟨f1, f2, f3⟩ := foldl_step_counters conv computer users
      { rg with m_totalComputers := wrapInt (rg.m_totalComputers + 1),
                m_computersWithUsers := wrapInt (rg.m_computersWithUsers + 1) } hu.1 hu.2
    unfold AddEntry
    simp only [hemp, Bool.false_eq_true, if_false]
    rw [f1, f2, f3, h1, h2]
    exact ⟨rfl, rfl, rfl⟩

/-- C3 at a concrete input: a computer with two sessions on a fresh sink. -/
theorem AddEntry_counters_witness :
    (AddEntry sampleConv sampleSink samplePC sampleUsers).GetTotalComputers = 1 ∧
    (AddEntry sampleConv sampleSink samplePC sampleUsers).GetComputersWithUsers = 1 ∧
    (AddEntry sampleConv sampleSink samplePC sampleUsers).GetTotalUsers = 2 ∧
    (AddEntry sampleConv sampleSink samplePC []).GetTotalComputers = 1 ∧
    (AddEntry sampleConv sampleSink samplePC []).GetComputersWithUsers = 0 ∧
    (AddEntry sampleConv sampleSink samplePC []).GetTotalUsers = 0 := by
  have h := (AddEntry_counters sampleConv sampleSink samplePC sampleUsers
    (by decide) (by decide) (by decide)).2 (by decide)
  have h0 := (AddEntry_counters sampleConv sampleSink samplePC []
    (by decide) (by decide) (by decide)).1 rfl
  exact ⟨h.1, h.2.1, h.2.2, h0.1, h0.2.1, h0.2.2⟩

/-! ## DomainToDN -/

theorem intercalate_cons_cons (sep a b : WString) (l : List WString) :
    sep.intercalate (a :: b :: l) = a ++ sep ++ sep.intercalate (b :: l) := by
  simp [List.intercalate, List.intersperse]

theorem intercalate_concat (sep : WString) (xs : List WString) (x : WString) :
    sep.intercalate (xs ++ [x]) =
      if xs = [] then x else sep.intercalate xs ++ sep ++ x := by
  induction xs with
  | nil => simp [List.intercalate]
  | cons y ys ih =>
    cases ys with
    | nil => simp [List.intercalate, List.intersperse]
    | cons z zs =>
      have ih' : sep.intercalate (z :: (zs ++ [x])) = sep.intercalate (z :: zs) ++ sep ++ x := by
        simpa using ih
      rw [if_neg (by simp)]
      show sep.intercalate (y :: z :: (zs ++ [x])) = _
      rw [intercalate_cons_cons, intercalate_cons_cons, ih']
      simp

theorem intercalate_ne_nil (sep y : WString) (ys : List WString) (hy : y ≠ []) :
    sep.intercalate (y :: ys) ≠ [] := by
  cases ys with
  | nil => simpa [List.intercalate, List.intersperse] using hy
  | cons z zs =>
    rw [intercalate_cons_cons]
    simp [hy]

/-- The join of the segments collected so far, in the form the loop keeps it. -/
theorem joinDC_concat (done : List WString) (seg : WString) :
    [','].intercalate ((done ++ [seg]).map fun s => ['D', 'C', '='] ++ s) =
      (if ¬ ([','].intercalate (done.map fun s => ['D', 'C', '='] ++ s)).isEmpty = true then
        [','].intercalate (done.map fun s => ['D', 'C', '='] ++ s) ++ [',']
      else [','].intercalate (done.map fun s => ['D', 'C', '='] ++ s)) ++
        (['D', 'C', '='] ++ seg) := by
  rw [List.map_append, List.map_singleton, intercalate_concat]
  cases done with
  | nil => simp [List.intercalate]
  | cons y ys =>
    have hne : ¬ ([','].intercalate ((y :: ys).map fun s => ['D', 'C', '='] ++ s)).isEmpty
        = true := by
      rw [List.isEmpty_iff]
      exact intercalate_ne_nil _ _ _ (by simp)
    rw [if_neg (by simp), if_pos hne]

theorem modifyHead_nil_append (L : List WString) :
    L.modifyHead (fun s => ([] : WString) ++ s) = L := by
  cases L <;> simp [List.modifyHead]

theorem modifyHead_modifyHead (f g : WString → WString) (L : List WString) :
    (L.modifyHead g).modifyHead f = L.modifyHead (f ∘ g) := by
  cases L <;> simp [List.modifyHead]

/-- The loop invariant of `DomainToDN`: with the segments `done` already
joined and `cur` the part being read, finishing on the rest `d` gives the join
of `done` followed by the non-empty segments of `cur ++ d`. -/
theorem DomainToDN_loop (d : WString) :
    ∀ (done : List WString) (cur : WString),
      (let st := d.foldl DomainToDN.step
          ([','].intercalate (done.map fun s => ['D', 'C', '='] ++ s), cur)
       if ¬ st.2.isEmpty then
         (if ¬ st.1.isEmpty then st.1 ++ [','] else st.1) ++ (['D', 'C', '='] ++ st.2)
       else st.1) =
      [','].intercalate
        ((done ++ (((d.splitOn '.').modifyHead fun s => cur ++ s).filter
          fun seg => ¬ seg.isEmpty)).map fun s => ['D', 'C', '='] ++ s) := by
  induction d with
  | nil =>
    intro done cur
    simp only [List.foldl_nil, List.splitOn, List.splitOnP_nil, List.modifyHead,
      List.append_nil]
    by_cases hc : cur = []
    · subst hc
      simp
    · have hf : List.filter (fun seg : WString => decide (¬ seg.isEmpty = true)) [cur]
          = [cur] := by simp [hc]
      rw [hf, joinDC_concat]
      simp [hc]
  | cons c cs ih =>
    intro done cur
    rw [List.foldl_cons, List.splitOn, List.splitOnP_cons]
    by_cases hdot : c = '.'
    · subst hdot
      by_cases hc : cur = []
      · subst hc
        have hstep : DomainToDN.step
            ([','].intercalate (done.map fun s => ['D', 'C', '='] ++ s), []) '.' =
            ([','].intercalate (done.map fun s => ['D', 'C', '='] ++ s), []) := by
          simp [DomainToDN.step]
        rw [hstep]
        have := ih done []
        rw [modifyHead_nil_append] at this
        rw [this]
        simp [List.modifyHead, List.splitOn]
      · have hstep : DomainToDN.step
            ([','].intercalate (done.map fun s => ['D', 'C', '='] ++ s), cur) '.' =
            ([','].intercalate ((done ++ [cur]).map fun s => ['D', 'C', '='] ++ s), []) := by
          rw [joinDC_concat]
          simp [DomainToDN.step, hc]
        rw [hstep]
        have := ih (done ++ [cur]) []
        rw [modifyHead_nil_append] at this
        rw [this]
        simp [List.modifyHead, List.splitOn, hc]
    · have hstep : DomainToDN.step
          ([','].intercalate (done.map fun s => ['D', 'C', '='] ++ s), cur) c =
          ([','].intercalate (done.map fun s => ['D', 'C', '='] ++ s), cur ++ [c]) := by
        simp [DomainToDN.step, hdot]
      rw [hstep, ih done (cur ++ [c])]
      have hb : (c == '.') = false := by simpa using hdot
      simp only [hb, Bool.false_eq_true, if_false, modifyHead_modifyHead, List.splitOn]
      have hfun : ((fun s : WString => cur ++ s) ∘ List.cons c) =
          fun s => cur ++ [c] ++ s := by
        funext s
        simp
      rw [hfun]

/-- C4. For every domain string `d`, `DomainToDN d` is the result of splitting
`d` on `.`, dropping the empty segments, prefixing each remaining segment with
`DC=` and joining with `,`; `example.com` gives `DC=example,DC=com`, `a` gives
`DC=a` and the empty string gives the empty string. -/
theorem DomainToDN_eq_domainToBasePath :
    (∀ d : WString, DomainToDN d = domainToBasePath d) ∧
    DomainToDN "example.com".toList = "DC=example,DC=com".toList ∧
    DomainToDN "a".toList = "DC=a".toList ∧
    DomainToDN [] = [] := by
  refine ⟨?_, by decide, by decide, by decide⟩
  intro d
  have h := DomainToDN_loop d [] []
  rw [modifyHead_nil_append] at h
  simpa [DomainToDN, domainToBasePath, List.intercalate] using h

/-! ## ExtractComputerName -/

/-- What `findSub` returns: the position of an occurrence, and no occurrence
starts earlier; `none` exactly when there is no occurrence. -/
theorem findSub_spec (pat : WString) :
    ∀ s : WString,
      (∀ i, findSub pat s = some i →
        (∃ suf, s = s.take i ++ pat ++ suf) ∧ i ≤ s.length ∧
        ∀ p' s', s = p' ++ pat ++ s' → i ≤ p'.length) ∧
      (findSub pat s = none → ∀ p' s', s ≠ p' ++ pat ++ s') := by
  intro s
  induction s with
  | nil =>
    unfold findSub
    by_cases hp : pat.isPrefixOf [] = true
    · rw [if_pos hp]
      have hnil : pat = [] := by
        have := List.isPrefixOf_iff_prefix.1 hp
        exact List.prefix_nil.1 this
      subst hnil
      refine ⟨?_, by simp⟩
      intro i hi
      have : i = 0 := by simpa using hi.symm
      subst this
      simp
    · rw [if_neg hp]
      refine ⟨by simp, ?_⟩
      intro _ p' s' h
      apply hp
      have h2 : pat = [] := by
        have := congrArg List.length h
        simp at this
        exact List.length_eq_zero.1 (by omega)
      subst h2
      rfl
  | cons c cs ih =>
    unfold findSub
    by_cases hp : pat.isPrefixOf (c :: cs) = true
    · rw [if_pos hp]
      obtain ⟨t, ht⟩ := List.isPrefixOf_iff_prefix.1 hp
      refine ⟨?_, by simp⟩
      intro i hi
      have : i = 0 := by simpa using hi.symm
      subst this
      exact ⟨⟨t, by simpa using ht.symm⟩, by simp, by simp⟩
    · rw [if_neg hp]
      have hnotpre : ∀ s', c :: cs ≠ [] ++ pat ++ s' := by
        intro s' h
        apply hp
        exact List.isPrefixOf_iff_prefix.2 ⟨s', by simpa using h.symm⟩
      constructor
      · intro i hi
        cases hf : findSub pat cs with
        | none => rw [hf] at hi; simp at hi
        | some j =>
          rw [hf] at hi
          have hij : i = j + 1 := by simpa using hi.symm
          subst hij
          obtain ⟨⟨suf, hsuf⟩, hle, hmin⟩ := ih.1 j hf
          refine ⟨⟨suf, ?_⟩, by simpa using hle, ?_⟩
          · rw [List.take_succ_cons, List.cons_append, List.cons_append, ← hsuf]
          · intro p' s' h
            cases p' with
            | nil => exact absurd h (hnotpre s')
            | cons a p'' =>
              have h2 : cs = p'' ++ pat ++ s' := by
                simp only [List.cons_append, List.cons.injEq] at h
                exact h.2
              have := hmin p'' s' h2
              simpa using this
      · intro hnone p' s' h
        have hf : findSub pat cs = none := by
          cases hf : findSub pat cs with
          | none => rfl
          | some j => rw [hf] at hnone; simp at hnone
        cases p' with
        | nil => exact hnotpre s' h
        | cons a p'' =>
          have h2 : cs = p'' ++ pat ++ s' := by
            simp only [List.cons_append, List.cons.injEq] at h
            exact h.2
          exact ih.2 hf p'' s' h2

/-- What `findChar` returns: the length of the prefix before the first
occurrence; `none` exactly when the character does not occur. -/
theorem findChar_spec (ch : Char) :
    ∀ s : WString,
      (∀ i, findChar ch s = some i →
        s.take i = s.takeWhile (fun c => c ≠ ch) ∧ ch ∈ s) ∧
      (findChar ch s = none → ch ∉ s) := by
  intro s
  induction s with
  | nil => simp [findChar]
  | cons c cs ih =>
    unfold findChar
    by_cases hc : c = ch
    · subst hc
      simp
    · rw [if_neg hc]
      constructor
      · intro i hi
        cases hf : findChar ch cs with
        | none => rw [hf] at hi; simp at hi
        | some j =>
          rw [hf] at hi
          have hij : i = j + 1 := by simpa using hi.symm
          subst hij
          obtain ⟨h1, h2⟩ := ih.1 j hf
          refine ⟨?_, List.mem_cons_of_mem _ h2⟩
          rw [List.take_succ_cons, h1, List.takeWhile_cons]
          simp [hc]
      · intro hnone
        have hf : findChar ch cs = none := by
          cases hf : findChar ch cs with
          | none => rfl
          | some j => rw [hf] at hnone; simp at hnone
        have := ih.2 hf
        simp only [List.mem_cons, not_or]
        exact ⟨fun h => hc h.symm, this⟩

theorem ExtractComputerName_unfold (fqdn domain : WString) :
    ExtractComputerName fqdn domain =
      match findSub ('.' :: domain) fqdn with
      | some pos => fqdn.take pos
      | none =>
        match findChar '.' fqdn with
        | some pos => fqdn.take pos
        | none => fqdn := rfl

/-- C5, the claim as stated fails: when `"." + domain` occurs in `fqdn` before
the end, the code cuts at the first occurrence, not at the suffix
(`pc.com.com` in domain `com` gives `pc`, the suffix rule gives `pc.com`), and
when it occurs only in the middle the code still cuts there, not at the first
`.` (`pc1.sub.example.company.org` in domain `example.com` gives `pc1.sub`,
the first-dot rule gives `pc1`). -/
theorem ExtractComputerName_ne_extractShortName :
    ExtractComputerName "pc.com.com".toList "com".toList = "pc".toList ∧
    extractShortName "pc.com.com".toList "com".toList = "pc.com".toList ∧
    ExtractComputerName "pc.com.com".toList "com".toList ≠
      extractShortName "pc.com.com".toList "com".toList ∧
    ExtractComputerName "pc1.sub.example.company.org".toList "example.com".toList =
      "pc1.sub".toList ∧
    extractShortName "pc1.sub.example.company.org".toList "example.com".toList =
      "pc1".toList := by
  decide

/-- C5, amended. `ExtractComputerName fqdn domain` is: when `"." + domain`
occurs anywhere in `fqdn`, the prefix of `fqdn` before its first occurrence;
otherwise, when `fqdn` contains a `.`, the prefix before the first `.`;
otherwise `fqdn` unchanged. -/
theorem ExtractComputerName_first_occurrence (fqdn domain : WString) :
    ((∃ p s : WString, fqdn = p ++ '.' :: domain ++ s) →
      (∃ s : WString, fqdn = ExtractComputerName fqdn domain ++ '.' :: domain ++ s) ∧
      ∀ p' s' : WString, fqdn = p' ++ '.' :: domain ++ s' →
        (ExtractComputerName fqdn domain).length ≤ p'.length) ∧
    ((¬ ∃ p s : WString, fqdn = p ++ '.' :: domain ++ s) → '.' ∈ fqdn →
      ExtractComputerName fqdn domain = fqdn.takeWhile (fun c => c ≠ '.')) ∧
    ('.' ∉ fqdn → ExtractComputerName fqdn domain = fqdn) := by
  have hsub := findSub_spec ('.' :: domain) fqdn
  have hchr := findChar_spec '.' fqdn
  rw [ExtractComputerName_unfold]
  cases hf : findSub ('.' :: domain) fqdn with
  | some i =>
    obtain ⟨⟨suf, hsuf⟩, hle, hmin⟩ := hsub.1 i hf
    refine ⟨?_, ?_, ?_⟩
    · intro _
      refine ⟨⟨suf, hsuf⟩, ?_⟩
      intro p' s' h
      simp only [List.length_take]
      have := hmin p' s' h
      omega
    · intro hno
      exact absurd ⟨_, _, hsuf⟩ hno
    · intro hnodot
      exfalso
      apply hnodot
      rw [hsuf]
      simp
  | none =>
    have hno := hsub.2 hf
    refine ⟨?_, ?_, ?_⟩
    · rintro ⟨p, s', h⟩
      exact absurd h (hno p s')
    · intro _ hdot
      cases hc : findChar '.' fqdn with
      | some j => exact (hchr.1 j hc).1
      | none => exact absurd hdot (hchr.2 hc)
    · intro hnodot
      cases hc : findChar '.' fqdn with
      | some j => exact absurd (hchr.1 j hc).2 hnodot
      | none => rfl

/-- C5 amended, at concrete inputs: one for each of the three cases. -/
theorem ExtractComputerName_first_occurrence_witness :
    ExtractComputerName "a.b.c".toList "b".toList = "a".toList ∧
    (ExtractComputerName "a.b.c".toList "b".toList).length ≤ "a".toList.length ∧
    ExtractComputerName "PC1.other.org".toList "example.com".toList =
      "PC1.other.org".toList.takeWhile (fun c => c ≠ '.') ∧
    ExtractComputerName "PC1".toList "example.com".toList = "PC1".toList :=
  ⟨by decide,
   (ExtractComputerName_first_occurrence "a.b.c".toList "b".toList).1
      ⟨"a".toList, ".c".toList, by decide⟩ |>.2 "a".toList ".c".toList (by decide),
   (ExtractComputerName_first_occurrence "PC1.other.org".toList "example.com".toList).2.1
      (by
        intro h
        have := (findSub_spec ('.' :: "example.com".toList) "PC1.other.org".toList).2
          (by decide)
        obtain ⟨p, s, hps⟩ := h
        exact this p s hps)
      (by decide),
   (ExtractComputerName_first_occurrence "PC1".toList "example.com".toList).2.2 (by decide)⟩

/-! ### Joining a dot-free label to the domain and extracting it again -/

theorem findSub_label (pat : WString) (d : WString) :
    ∀ n : WString, '.' ∉ n → findSub ('.' :: d) (n ++ '.' :: d ++ pat) = some n.length := by
  intro n
  induction n with
  | nil =>
    intro _
    have : ('.' :: d).isPrefixOf ('.' :: d ++ pat) = true :=
      List.isPrefixOf_iff_prefix.2 ⟨pat, rfl⟩
    simp only [List.nil_append, List.length_nil]
    unfold findSub
    simp only [List.cons_append] at this ⊢
    rw [if_pos this]
  | cons c cs ih =>
    intro hn
    have hc : c ≠ '.' := fun h => hn (by simp [h])
    have hcs : '.' ∉ cs := fun h => hn (List.mem_cons_of_mem _ h)
    have hnot : ¬ ('.' :: d).isPrefixOf (c :: (cs ++ '.' :: d ++ pat)) = true := by
      intro h
      obtain ⟨t, ht⟩ := List.isPrefixOf_iff_prefix.1 h
      simp only [List.cons_append, List.cons.injEq] at ht
      exact hc ht.1.symm
    show findSub ('.' :: d) (c :: (cs ++ '.' :: d ++ pat)) = _
    unfold findSub
    rw [if_neg hnot, ih hcs]
    simp

theorem findSub_no_dot (d : WString) :
    ∀ n : WString, '.' ∉ n → findSub ('.' :: d) n = none := by
  intro n hn
  cases hf : findSub ('.' :: d) n with
  | none => rfl
  | some i =>
    obtain ⟨⟨suf, hsuf⟩, _, _⟩ := (findSub_spec ('.' :: d) n).1 i hf
    exfalso
    apply hn
    rw [hsuf]
    simp

theorem findChar_no_dot : ∀ n : WString, '.' ∉ n → findChar '.' n = none := by
  intro n hn
  cases hf : findChar '.' n with
  | none => rfl
  | some i => exact absurd ((findChar_spec '.' n).1 i hf).2 hn

/-- C6. For every label `n` without a `.` and every domain `d`,
`ExtractComputerName (n + "." + d) d = n` and `ExtractComputerName n d = n`. -/
theorem ExtractComputerName_label (n d : WString) (hn : '.' ∉ n) :
    ExtractComputerName (n ++ ['.'] ++ d) d = n ∧ ExtractComputerName n d = n := by
  constructor
  · have h := findSub_label [] d n hn
    have e : n ++ ['.'] ++ d = n ++ '.' :: d ++ [] := by simp
    rw [ExtractComputerName_unfold, e, h]
    simp
  · rw [ExtractComputerName_unfold, findSub_no_dot d n hn, findChar_no_dot n hn]

/-- C6 at the inputs of the specification: `PC1` joined to `example.com`. -/
theorem ExtractComputerName_label_witness :
    '.' ∉ "PC1".toList ∧
    ExtractComputerName ("PC1".toList ++ ['.'] ++ "example.com".toList) "example.com".toList =
      "PC1".toList ∧
    ExtractComputerName "PC1".toList "example.com".toList = "PC1".toList ∧
    ExtractComputerName "PC1.example.com".toList "example.com".toList = "PC1".toList :=
  ⟨by decide, (ExtractComputerName_label "PC1".toList "example.com".toList (by decide)).1,
   (ExtractComputerName_label "PC1".toList "example.com".toList (by decide)).2, by decide⟩

/-! ## EscapeCSV -/

theorem findChar_isSome (ch : Char) (s : WString) : (findChar ch s).isSome = true ↔ ch ∈ s := by
  constructor
  · intro h
    cases hf : findChar ch s with
    | none => rw [hf] at h; simp at h
    | some i => exact ((findChar_spec ch s).1 i hf).2
  · intro h
    cases hf : findChar ch s with
    | none => exact absurd h ((findChar_spec ch s).2 hf)
    | some i => rfl

theorem EscapeCSV_loop :
    ∀ (s acc : WString),
      s.foldl (fun escaped ch => if ch = '"' then escaped ++ ['"', '"'] else escaped ++ [ch])
        acc = acc ++ doubleQuotes s := by
  intro s
  induction s with
  | nil => intro acc; simp [doubleQuotes]
  | cons c cs ih =>
    intro acc
    rw [List.foldl_cons, ih]
    unfold doubleQuotes
    rw [List.flatMap_cons]
    by_cases hc : c = '"' <;> simp [hc]

/-- The code of `EscapeCSV` computes the escaping rule of the specification. -/
theorem EscapeCSV_eq (s : WString) : EscapeCSV s = escapeField s := by
  unfold EscapeCSV escapeField
  simp only [findChar_isSome, EscapeCSV_loop]

/-- C7. For every string `s`, `EscapeCSV s` is `"` + (`s` with every `"`
doubled) + `"` when `s` contains a comma, a double quote or a newline, and is
`s` otherwise; `Windows 10, Pro` becomes `"Windows 10, Pro"` and `Say "hi"`
becomes `"Say ""hi"""`. -/
theorem EscapeCSV_spec :
    (∀ s : WString, EscapeCSV s =
      if ',' ∈ s ∨ '"' ∈ s ∨ '\n' ∈ s then ['"'] ++ doubleQuotes s ++ ['"'] else s) ∧
    EscapeCSV "Windows 10, Pro".toList = "\"Windows 10, Pro\"".toList ∧
    EscapeCSV "Say \"hi\"".toList = "\"Say \"\"hi\"\"\"".toList := by
  refine ⟨fun s => ?_, by decide, by decide⟩
  rw [EscapeCSV_eq]
  rfl

/-- C8, the claim as stated fails: a host name with a comma, a raw identifier
with a comma and an account name with a double quote are written as they
are, not quote-wrapped with doubled quotes. -/
theorem AddEntry_not_fullyEscaped :
    (AddEntry sampleConv sampleSink commaHost []).m_outputFile ≠
      ((fullyEscapedRows commaHost []).map fun row =>
        WStringToUTF8 sampleConv (row ++ ['\n'])).flatten ∧
    (AddEntry sampleConv sampleSink samplePC [commaSid]).m_outputFile ≠
      ((fullyEscapedRows samplePC [commaSid]).map fun row =>
        WStringToUTF8 sampleConv (row ++ ['\n'])).flatten ∧
    (AddEntry sampleConv sampleSink samplePC [quoteUser]).m_outputFile ≠
      ((fullyEscapedRows samplePC [quoteUser]).map fun row =>
        WStringToUTF8 sampleConv (row ++ ['\n'])).flatten ∧
    (AddEntry sampleConv sampleSink commaHost []).m_outputFile =
      "a,b,W,,\n".toList.map Char.toNat := by
  decide

/-- C8, amended. In every row `AddEntry` writes to an open sink, the
operating-system field follows the escaping rule (quote-wrapped with its
internal quotes doubled exactly when it contains a comma, a double quote or a
newline), the host name and the raw identifier are written as they are, and
the identity is written between quotes as it is. -/
theorem AddEntry_osEscaped (conv : WString → List Nat) (rg : ReportGenerator)
    (computer : ComputerInfo) (users : List UserInfo) (hopen : rg.is_open = true) :
    (AddEntry conv rg computer users).m_outputFile =
      rg.m_outputFile ++
        ((osEscapedRows computer users).map fun row =>
          WStringToUTF8 conv (row ++ ['\n'])).flatten := by
  rw [AddEntry_output conv rg computer users hopen]
  cases users with
  | nil => simp [osEscapedRows, emptyLine, EscapeCSV_eq]
  | cons u us =>
    simp [osEscapedRows, userLine, UserInfo.GetFullName, Function.comp_def, EscapeCSV_eq]

/-- C8 amended, at a concrete input: a computer whose operating system contains
a comma, with two sessions. -/
theorem AddEntry_osEscaped_witness :
    sampleSink.is_open = true ∧
    (AddEntry sampleConv sampleSink samplePC sampleUsers).m_outputFile =
      sampleSink.m_outputFile ++
        ((osEscapedRows samplePC sampleUsers).map fun row =>
          WStringToUTF8 sampleConv (row ++ ['\n'])).flatten :=
  ⟨rfl, AddEntry_osEscaped sampleConv sampleSink samplePC sampleUsers rfl⟩

/-! ## GetLoggedOnUsers -/

/-- One turn of the enumeration loop in terms of `resolveEntry`. -/
theorem enumLoop_step {Sid : Type} (api : WinApi Sid) (host : WString) (keys : List WString)
    (index : Nat) (users : List UserInfo) :
    enumLoop api host keys index users =
      match keys[index]? with
      | none => users
      | some key =>
        enumLoop api host keys (index + 1)
          (users ++ (resolveEntry api host key).toList) := by
  rw [enumLoop]
  split
  · next h => simp [h]
  · next key h =>
    simp only [h, resolveEntry]
    cases hc : api.ConvertStringSidToSidW key with
    | none => simp
    | some sid =>
      cases hl : api.LookupAccountSidW host sid with
      | none => simp [hl]
      | some pr =>
        obtain ⟨a, d⟩ := pr
        simp [hl]

/-- The enumeration loop appends the resolved entries of the remaining keys,
in order. -/
theorem enumLoop_eq {Sid : Type} (api : WinApi Sid) (host : WString) (keys : List WString) :
    ∀ (n index : Nat) (users : List UserInfo), keys.length - index = n →
      enumLoop api host keys index users =
        users ++ (keys.drop index).filterMap (resolveEntry api host) := by
  intro n
  induction n with
  | zero =>
    intro index users h
    have hge : keys.length ≤ index := by omega
    rw [enumLoop_step, List.getElem?_eq_none hge, List.drop_eq_nil_of_le hge]
    simp
  | succ n ih =>
    intro index users h
    have hlt : index < keys.length := by omega
    rw [enumLoop_step, List.getElem?_eq_getElem hlt, List.drop_eq_getElem_cons hlt]
    simp only
    rw [ih (index + 1) _ (by omega), List.filterMap_cons]
    cases hr : resolveEntry api host keys[index] <;> simp

/-- `GetLoggedOnUsers` in closed form. -/
theorem GetLoggedOnUsers_eq {Sid : Type} (api : WinApi Sid) (host : WString) :
    GetLoggedOnUsers api host =
      match api.RegConnectRegistryW host with
      | none => []
      | some keys => keys.filterMap (resolveEntry api host) := by
  unfold GetLoggedOnUsers
  cases api.RegConnectRegistryW host with
  | none => rfl
  | some keys =>
    simp only
    rw [enumLoop_eq api host keys keys.length 0 [] (by simp)]
    simp

theorem resolveEntry_some {Sid : Type} (api : WinApi Sid) (host key : WString) (u : UserInfo) :
    resolveEntry api host key = some u ↔
      ∃ sid, api.ConvertStringSidToSidW key = some sid ∧
        api.LookupAccountSidW host sid = some (u.userName, u.domainName) ∧ u.sid = key := by
  unfold resolveEntry
  cases hc : api.ConvertStringSidToSidW key with
  | none => simp
  | some sid =>
    cases hl : api.LookupAccountSidW host sid with
    | none => simp [hl]
    | some pr =>
      obtain ⟨a, d⟩ := pr
      obtain ⟨us, un, ud⟩ := u
      simp only [hl, Option.some.injEq, UserInfo.mk.injEq, exists_eq_left', Prod.mk.injEq]
      constructor
      · rintro ⟨h1, h2, h3⟩
        exact ⟨⟨h2, h3⟩, h1.symm⟩
      · rintro ⟨⟨h2, h3⟩, h1⟩
        exact ⟨h1.symm, h2, h3⟩

theorem length_filterMap_eq_filter {α β : Type} (f : α → Option β) (l : List α) :
    (l.filterMap f).length = (l.filter fun a => (f a).isSome).length := by
  induction l with
  | nil => rfl
  | cons a l ih =>
    rw [List.filterMap_cons, List.filter_cons]
    cases h : f a <;> simp [ih]

/-- C9. `GetLoggedOnUsers` returns the empty list when the connection fails,
and otherwise exactly the enumerated entries whose key parses as a SID and
whose lookup succeeds, in enumeration order, each with its key as raw
identifier and the resolved account and domain; an entry whose resolution
fails is skipped and the entries after it are still returned. -/
theorem GetLoggedOnUsers_resolved {Sid : Type} (api : WinApi Sid) (host : WString) :
    (api.RegConnectRegistryW host = none → GetLoggedOnUsers api host = []) ∧
    (∀ keys, api.RegConnectRegistryW host = some keys →
      GetLoggedOnUsers api host = keys.filterMap (resolveEntry api host)) ∧
    (∀ key u, resolveEntry api host key = some u ↔
      ∃ sid, api.ConvertStringSidToSidW key = some sid ∧
        api.LookupAccountSidW host sid = some (u.userName, u.domainName) ∧ u.sid = key) ∧
    (∀ front key rest, api.RegConnectRegistryW host = some (front ++ key :: rest) →
      resolveEntry api host key = none →
      GetLoggedOnUsers api host =
        front.filterMap (resolveEntry api host) ++ rest.filterMap (resolveEntry api host)) := by
  refine ⟨?_, ?_, resolveEntry_some api host, ?_⟩
  · intro h
    rw [GetLoggedOnUsers_eq, h]
  · intro keys h
    rw [GetLoggedOnUsers_eq, h]
  · intro front key rest h hnone
    rw [GetLoggedOnUsers_eq, h]
    simp only
    rw [List.filterMap_append, List.filterMap_cons, hnone]

/-- C9 at a concrete input: on the sample platform `PC1` yields the two
resolved entries in order and a host that does not connect yields nothing. -/
theorem GetLoggedOnUsers_resolved_witness :
    GetLoggedOnUsers sampleApi "PC1".toList =
      [{ sid := "S-1".toList, userName := "u".toList, domainName := "D".toList },
       { sid := "S-3".toList, userName := "v".toList, domainName := "E".toList }] ∧
    GetLoggedOnUsers sampleApi "PC2".toList = [] := by
  have h := GetLoggedOnUsers_resolved sampleApi "PC1".toList
  have h2 := GetLoggedOnUsers_resolved sampleApi "PC2".toList
  refine ⟨?_, h2.1 (by decide)⟩
  rw [h.2.1 ["S-1".toList, ".DEFAULT".toList, "S-2".toList, "S-3".toList] (by decide)]
  decide

/-- C10, the claim as stated fails: on the sample platform the host connects
and four entries are enumerated, but only the two that resolve are returned;
the entry `S-2`, whose lookup fails, is not kept with empty account and
domain. -/
theorem GetLoggedOnUsers_not_keepAll :
    sampleApi.RegConnectRegistryW "PC1".toList =
      some ["S-1".toList, ".DEFAULT".toList, "S-2".toList, "S-3".toList] ∧
    (GetLoggedOnUsers sampleApi "PC1".toList).length = 2 ∧
    "S-2".toList ∉ (GetLoggedOnUsers sampleApi "PC1".toList).map UserInfo.sid ∧
    GetLoggedOnUsers sampleApi "PC1".toList ≠
      keepAllEntries sampleApi "PC1".toList
        ["S-1".toList, ".DEFAULT".toList, "S-2".toList, "S-3".toList] := by
  rw [GetLoggedOnUsers_eq]
  decide

/-- C10, amended. For every host whose session store connects, resolution
failure for an entry discards that entry only: the result holds exactly the
enumerated entries that resolve, each with its resolved account and domain,
so it has as many entries as there are enumerated keys that resolve, at most
as many as were enumerated, and as many exactly when every key resolves. -/
theorem GetLoggedOnUsers_skips_unresolved {Sid : Type} (api : WinApi Sid) (host : WString)
    (keys : List WString) (hconn : api.RegConnectRegistryW host = some keys) :
    (GetLoggedOnUsers api host).length =
      (keys.filter fun key => (resolveEntry api host key).isSome).length ∧
    (GetLoggedOnUsers api host).length ≤ keys.length ∧
    (∀ key ∈ keys, (resolveEntry api host key).isSome = true ↔
      ∃ u ∈ GetLoggedOnUsers api host, u.sid = key) ∧
    (∀ u ∈ GetLoggedOnUsers api host, u.sid ∈ keys ∧ resolveEntry api host u.sid = some u) ∧
    ((GetLoggedOnUsers api host).length = keys.length ↔
      ∀ key ∈ keys, (resolveEntry api host key).isSome = true) := by
  have heq : GetLoggedOnUsers api host = keys.filterMap (resolveEntry api host) := by
    rw [GetLoggedOnUsers_eq, hconn]
  have hsid : ∀ key u, resolveEntry api host key = some u → u.sid = key := by
    intro key u h
    obtain ⟨_, _, _, h3⟩ := (resolveEntry_some api host key u).1 h
    exact h3
  rw [heq]
  refine ⟨length_filterMap_eq_filter _ _, List.length_filterMap_le _ _, ?_, ?_, ?_⟩
  · intro key hkey
    constructor
    · intro hsome
      obtain ⟨u, hu⟩ := Option.isSome_iff_exists.1 hsome
      exact ⟨u, List.mem_filterMap.2 ⟨key, hkey, hu⟩, hsid key u hu⟩
    · rintro ⟨u, hu, hk⟩
      obtain ⟨a, _, ha⟩ := List.mem_filterMap.1 hu
      have : a = key := by rw [← hsid a u ha, hk]
      subst this
      rw [ha]
      rfl
  · intro u hu
    obtain ⟨a, hmem, ha⟩ := List.mem_filterMap.1 hu
    have : u.sid = a := hsid a u ha
    rw [this]
    exact ⟨hmem, ha⟩
  · rw [length_filterMap_eq_filter, List.filter_length_eq_length]

/-- C10 amended, at a concrete input: the sample platform and host `PC1`. -/
theorem GetLoggedOnUsers_skips_unresolved_witness :
    sampleApi.RegConnectRegistryW "PC1".toList =
      some ["S-1".toList, ".DEFAULT".toList, "S-2".toList, "S-3".toList] ∧
    (GetLoggedOnUsers sampleApi "PC1".toList).length ≤
      ["S-1".toList, ".DEFAULT".toList, "S-2".toList, "S-3".toList].length :=
  ⟨by decide,
   (GetLoggedOnUsers_skips_unresolved sampleApi "PC1".toList
      ["S-1".toList, ".DEFAULT".toList, "S-2".toList, "S-3".toList] (by decide)).2.1⟩

/-! ## GetAllComputers -/

/-- The combining loop appends one record per remaining index, in order. -/
theorem combineLoop_eq (domain : WString) (hostnames osSystems : List WString) :
    ∀ (remaining i : Nat) (computers : List ComputerInfo),
      combineLoop domain hostnames osSystems remaining i computers =
        computers ++ (List.range' i remaining).map fun j =>
          { hostname := hostnames.getD j [],
            computerName := ExtractComputerName (hostnames.getD j []) domain,
            operatingSystem :=
              if j < osSystems.length then osSystems.getD j [] else "Unknown".toList } := by
  intro remaining
  induction remaining with
  | zero => intro i computers; simp [combineLoop]
  | succ r ih =>
    intro i computers
    rw [combineLoop, ih, List.range'_succ, List.map_cons, List.append_assoc]
    rfl

/-- Reading the `i`-th record the combining loop produces from scratch. -/
theorem combineLoop_getElem? (domain : WString) (hostnames osSystems : List WString)
    (i : Nat) (h : WString) (hi : hostnames[i]? = some h) :
    (combineLoop domain hostnames osSystems hostnames.length 0 [])[i]? =
      some { hostname := h, computerName := ExtractComputerName h domain,
             operatingSystem := osSystems[i]?.getD "Unknown".toList } := by
  obtain ⟨hlt, hget⟩ := List.getElem?_eq_some_iff.1 hi
  have hD : hostnames.getD i [] = h := by
    rw [List.getD_eq_getElem?_getD, hi]
    rfl
  rw [combineLoop_eq, List.nil_append, List.getElem?_map, List.getElem?_range' _ _ hlt]
  simp only [Option.map_some', Nat.zero_add, Nat.one_mul, hD]
  by_cases ho : i < osSystems.length
  · rw [if_pos ho, List.getD_eq_getElem?_getD, List.getElem?_eq_getElem ho]
    rfl
  · rw [if_neg ho, List.getElem?_eq_none (by omega)]
    rfl

/-- C11. With `H` the host-name values and `O` the operating-system values of
a successful search, `GetAllComputers` returns exactly `|H|` records in the
order of `H`, the `i`-th with hostname `H[i]`, computer name
`ExtractComputerName H[i] domain` and operating system `O[i]` when `i < |O|`
and `Unknown` otherwise; when `Initialize`, `Bind` or `Search` fails it
returns the empty list. -/
theorem GetAllComputers_records {Entry : Type} (api : LdapApi Entry) (ad : ADHelper) :
    (((LDAPQuery.construct Entry ad.m_domainController).Initialize api).2 = false →
      ad.GetAllComputers api = []) ∧
    (((LDAPQuery.construct Entry ad.m_domainController).Initialize api).1.Bind api = false →
      ad.GetAllComputers api = []) ∧
    (∀ ldap, ad.CreateLDAPConnection api = some ldap →
      (ldap.Search api ad.m_baseDN "(&(objectClass=computer))".toList
        ["dNSHostName".toList, "operatingSystem".toList]).2 = false →
      ad.GetAllComputers api = []) ∧
    (∀ ldap, ad.CreateLDAPConnection api = some ldap →
      (ldap.Search api ad.m_baseDN "(&(objectClass=computer))".toList
        ["dNSHostName".toList, "operatingSystem".toList]).2 = true →
      ∀ H O : List WString,
        H = (ldap.Search api ad.m_baseDN "(&(objectClass=computer))".toList
          ["dNSHostName".toList, "operatingSystem".toList]).1.GetAttributeValues api
            "dNSHostName".toList →
        O = (ldap.Search api ad.m_baseDN "(&(objectClass=computer))".toList
          ["dNSHostName".toList, "operatingSystem".toList]).1.GetAttributeValues api
            "operatingSystem".toList →
        (ad.GetAllComputers api).length = H.length ∧
        ∀ (i : Nat) (h : WString), H[i]? = some h →
          (ad.GetAllComputers api)[i]? =
            some { hostname := h, computerName := ExtractComputerName h ad.m_domain,
                   operatingSystem := O[i]?.getD "Unknown".toList }) := by
  refine ⟨?_, ?_, ?_, ?_⟩
  · intro h
    simp [ADHelper.GetAllComputers, ADHelper.CreateLDAPConnection, h]
  · intro h
    unfold ADHelper.GetAllComputers ADHelper.CreateLDAPConnection
    by_cases h2 : ((LDAPQuery.construct Entry ad.m_domainController).Initialize api).2 = true
    · simp [h, h2]
    · simp [h2]
  · intro ldap hc hs
    unfold ADHelper.GetAllComputers
    rw [hc]
    simp only [hs, Bool.false_eq_true, not_false_eq_true, if_true]
  · intro ldap hc hs H O hH hO
    have hres : ad.GetAllComputers api = combineLoop ad.m_domain H O H.length 0 [] := by
      unfold ADHelper.GetAllComputers
      rw [hc]
      simp only [hs, not_true_eq_false, if_false, ← hH, ← hO]
    rw [hres]
    refine ⟨?_, ?_⟩
    · rw [combineLoop_eq]
      simp
    · intro i h hi
      exact combineLoop_getElem? ad.m_domain H O i h hi

/-- C11 at a concrete input: the sample directory gives three records, the
third with the placeholder, and a directory that rejects the bind gives
none. -/
theorem GetAllComputers_records_witness :
    sampleAD.GetAllComputers sampleLdap =
      [{ hostname := "PC1.example.com".toList, computerName := "PC1".toList,
         operatingSystem := "Windows 11".toList },
       { hostname := "PC2.example.com".toList, computerName := "PC2".toList,
         operatingSystem := "Windows 10, Pro".toList },
       { hostname := "PC3".toList, computerName := "PC3".toList,
         operatingSystem := "Unknown".toList }] ∧
    sampleAD.GetAllComputers rejectingLdap = [] :=
  ⟨by decide, (GetAllComputers_records rejectingLdap sampleAD).2.1 (by decide)⟩

/-! ## Statistics over a run -/

theorem foldl_step_is_open (conv : WString → List Nat) (computer : ComputerInfo) :
    ∀ (users : List UserInfo) (rg : ReportGenerator),
      (users.foldl (AddEntry.step conv computer) rg).is_open = rg.is_open := by
  intro users
  induction users with
  | nil => intro rg; rfl
  | cons u us ih =>
    intro rg
    rw [List.foldl_cons, ih]
    unfold AddEntry.step
    rw [(write_output _ _).2.1]

/-- `AddEntry` neither opens nor closes the stream. -/
theorem AddEntry_is_open (conv : WString → List Nat) (rg : ReportGenerator)
    (computer : ComputerInfo) (users : List UserInfo) :
    (AddEntry conv rg computer users).is_open = rg.is_open := by
  unfold AddEntry
  cases users with
  | nil => simp only [List.isEmpty_nil, if_true, (write_output _ _).2.1]
  | cons u us =>
    simp only [List.isEmpty_cons, Bool.false_eq_true, if_false]
    rw [foldl_step_is_open]

/-- The effect of one `AddEntry` call on the three counters, when they have
room for the increments. -/
theorem AddEntry_stats (conv : WString → List Nat) (rg : ReportGenerator)
    (computer : ComputerInfo) (users : List UserInfo)
    (hc : -2 ^ 31 ≤ rg.m_totalComputers ∧ rg.m_totalComputers + 1 < 2 ^ 31)
    (hw : -2 ^ 31 ≤ rg.m_computersWithUsers ∧ rg.m_computersWithUsers + 1 < 2 ^ 31)
    (hu : -2 ^ 31 ≤ rg.m_totalUsers ∧ rg.m_totalUsers + users.length < 2 ^ 31) :
    (AddEntry conv rg computer users).m_totalComputers = rg.m_totalComputers + 1 ∧
    (AddEntry conv rg computer users).m_computersWithUsers =
      rg.m_computersWithUsers + (if users.isEmpty then 0 else 1) ∧
    (AddEntry conv rg computer users).m_totalUsers = rg.m_totalUsers + users.length := by
  have h1 : wrapInt (rg.m_totalComputers + 1) = rg.m_totalComputers + 1 :=
    wrapInt_of_range _ (by omega) hc.2
  have h2 : wrapInt (rg.m_computersWithUsers + 1) = rg.m_computersWithUsers + 1 :=
    wrapInt_of_range _ (by omega) hw.2
  cases users with
  | nil =>
    unfold AddEntry
    simp only [List.isEmpty_nil, if_true, (write_output _ _).2.2.1,
      (write_output _ _).2.2.2.1, (write_output _ _).2.2.2.2, h1]
    simp
  | cons u us =>
    obtain ⟨f1, f2, f3⟩ := foldl_step_counters conv computer (u :: us)
      { rg with m_totalComputers := wrapInt (rg.m_totalComputers + 1),
                m_computersWithUsers := wrapInt (rg.m_computersWithUsers + 1) } hu.1 hu.2
    unfold AddEntry
    simp only [List.isEmpty_cons, Bool.false_eq_true, if_false]
    rw [f1, f2, f3, h1, h2]
    exact ⟨rfl, rfl, rfl⟩

/-- The lines `AddEntry` writes are the rows of the specification with their
newline. -/
theorem lines_eq_expectedRows (conv : WString → List Nat) (computer : ComputerInfo)
    (users : List UserInfo) :
    (if users = [] then WStringToUTF8 conv (emptyLine computer)
     else (users.map fun u => WStringToUTF8 conv (userLine computer u)).flatten) =
      (((expectedRows computer users).map fun row => row ++ ['\n']).map
        (WStringToUTF8 conv)).flatten := by
  cases users with
  | nil => simp [expectedRows, emptyLine]
  | cons u us => simp [expectedRows, userLine, UserInfo.GetFullName, Function.comp_def]

theorem length_expectedRows (computer : ComputerInfo) (users : List UserInfo) :
    (expectedRows computer users).length = if users.isEmpty then 1 else users.length := by
  cases users with
  | nil => simp [expectedRows]
  | cons u us => simp [expectedRows]

theorem runEntries_cons (conv : WString → List Nat) (rg : ReportGenerator)
    (call : ComputerInfo × List UserInfo) (calls : List (ComputerInfo × List UserInfo)) :
    runEntries conv rg (call :: calls) =
      runEntries conv (AddEntry conv rg call.1 call.2) calls := rfl

/-- The counters after a sequence of calls, from any counters with room. -/
theorem runEntries_counters (conv : WString → List Nat) :
    ∀ (calls : List (ComputerInfo × List UserInfo)) (rg : ReportGenerator),
      -2 ^ 31 ≤ rg.m_totalComputers → rg.m_totalComputers + calls.length < 2 ^ 31 →
      -2 ^ 31 ≤ rg.m_computersWithUsers → rg.m_computersWithUsers + calls.length < 2 ^ 31 →
      -2 ^ 31 ≤ rg.m_totalUsers →
      rg.m_totalUsers + ((calls.map fun call => call.2.length).sum : Nat) < 2 ^ 31 →
      (runEntries conv rg calls).m_totalComputers = rg.m_totalComputers + calls.length ∧
      (runEntries conv rg calls).m_computersWithUsers =
        rg.m_computersWithUsers + (calls.filter fun call => !call.2.isEmpty).length ∧
      (runEntries conv rg calls).m_totalUsers =
        rg.m_totalUsers + ((calls.map fun call => call.2.length).sum : Nat) := by
  intro calls
  induction calls with
  | nil => intro rg _ _ _ _ _ _; simp [runEntries]
  | cons call calls ih =>
    intro rg c1 c2 w1 w2 u1 u2
    simp only [List.length_cons, List.map_cons, List.sum_cons, Nat.cast_add, Nat.cast_one]
      at c2 w2 u2 ⊢
    obtain ⟨a1, a2, a3⟩ := AddEntry_stats conv rg call.1 call.2 ⟨c1, by omega⟩
      ⟨w1, by omega⟩ ⟨u1, by omega⟩
    have hb : (if call.2.isEmpty = true then (0 : Int) else 1) ≤ 1 ∧
        (0 : Int) ≤ (if call.2.isEmpty = true then (0 : Int) else 1) := by
      split <;> simp
    obtain ⟨r1, r2, r3⟩ := ih (AddEntry conv rg call.1 call.2)
      (by rw [a1]; omega) (by rw [a1]; omega) (by rw [a2]; omega) (by rw [a2]; omega)
      (by rw [a3]; omega) (by rw [a3]; omega)
    rw [runEntries_cons, r1, r2, r3, a1, a2, a3, List.filter_cons]
    refine ⟨by ring, ?_, by ring⟩
    cases hE : call.2.isEmpty
    · simp
      ring
    · simp

/-- The bytes a sequence of calls appends to an open sink. -/
theorem runEntries_output (conv : WString → List Nat) :
    ∀ (calls : List (ComputerInfo × List UserInfo)) (rg : ReportGenerator),
      rg.is_open = true →
      (runEntries conv rg calls).m_outputFile =
        rg.m_outputFile ++ ((writtenLines calls).map (WStringToUTF8 conv)).flatten := by
  intro calls
  induction calls with
  | nil => intro rg _; simp [runEntries, writtenLines]
  | cons call calls ih =>
    intro rg hopen
    rw [runEntries_cons, ih _ (by rw [AddEntry_is_open]; exact hopen),
      AddEntry_output conv rg call.1 call.2 hopen, lines_eq_expectedRows]
    simp [writtenLines]

/-- The number of rows of a sequence of calls: one per session, and one per
call without session. -/
theorem length_writtenLines (calls : List (ComputerInfo × List UserInfo)) :
    (writtenLines calls).length + (calls.filter fun call => !call.2.isEmpty).length =
      (calls.map fun call => call.2.length).sum + calls.length := by
  induction calls with
  | nil => rfl
  | cons call calls ih =>
    have hcons : writtenLines (call :: calls) =
        ((expectedRows call.1 call.2).map fun row => row ++ ['\n']) ++ writtenLines calls := by
      simp [writtenLines]
    rw [hcons, List.length_append, List.length_map, length_expectedRows, List.filter_cons]
    simp only [List.map_cons, List.sum_cons, List.length_cons]
    cases hE : call.2.isEmpty
    · simp only [Bool.false_eq_true, if_false, Bool.not_false, if_true, List.length_cons]
      omega
    · have h0 : call.2.length = 0 := by
        rw [List.isEmpty_iff] at hE
        rw [hE]
        rfl
      simp only [if_true, Bool.not_true, Bool.false_eq_true, if_false, h0]
      omega

/-- A batch run alone on the sink is the sequence of `AddEntry` calls for its
computers, in index order, each with the users enumerated on it. -/
theorem batchLoop_eq {Sid : Type} (api : WinApi Sid) (conv : WString → List Nat)
    (computers : List ComputerInfo) :
    ∀ (remaining i : Nat) (rg : ReportGenerator), i + remaining ≤ computers.length →
      batchLoop api conv computers remaining i rg =
        runEntries conv rg (((computers.drop i).take remaining).map fun computer =>
          (computer, GetLoggedOnUsers api computer.hostname)) := by
  intro remaining
  induction remaining with
  | zero => intro i rg _; simp [batchLoop, runEntries]
  | succ r ih =>
    intro i rg hle
    have hlt : i < computers.length := by omega
    rw [batchLoop, List.getElem?_eq_getElem hlt, List.drop_eq_getElem_cons hlt,
      List.take_succ_cons, List.map_cons, runEntries_cons]
    simp only
    rw [ih (i + 1) _ (by omega)]

/-- The calls of the sample fleet, evaluated. -/
theorem fleetCalls_eq :
    fleetCalls =
      [(⟨"A".toList, "A".toList, "W".toList⟩,
          [⟨"S-1".toList, "u".toList, "D".toList⟩, ⟨"S-3".toList, "v".toList, "E".toList⟩]),
       (⟨"B".toList, "B".toList, "W".toList⟩, []),
       (⟨"C".toList, "C".toList, "W".toList⟩, [])] := by
  simp only [fleetCalls, fleet, List.map, GetLoggedOnUsers_eq]
  decide

/-! ## ParseArguments -/

theorem clampThreads_range (n : Int) : 1 ≤ clampThreads n ∧ clampThreads n ≤ 500 := by
  unfold clampThreads
  split
  · omega
  · split <;> omega

/-- One turn of the argument loop on a flag and its value: either the
function returns, or the loop goes on after the value with a record whose
worker count is unchanged (a flag other than the thread flag) or is the clamp
of the parsed value (the thread flag). -/
theorem parseLoop_pair (stoi : List Char → Option Int) (arg value : List Char)
    (args : CommandLineArgs) :
    (∀ rest', parseLoop stoi (arg :: value :: rest') args = (args, false)) ∨
    ∃ args' : CommandLineArgs,
      (∀ rest', parseLoop stoi (arg :: value :: rest') args = parseLoop stoi rest' args') ∧
      ((¬ isThreadFlag arg ∧ args'.threadCount = args.threadCount) ∨
        (isThreadFlag arg ∧ ∃ parsed, stoi value = some parsed ∧
          args'.threadCount = clampThreads parsed)) := by
  unfold isThreadFlag
  by_cases hh : arg = "-h".toList ∨ arg = "--help".toList
  · left
    intro rest'
    rw [parseLoop, if_pos hh]
  by_cases hd : arg = "-d".toList ∨ arg = "--domain".toList
  · right
    refine ⟨{ args with domain := value }, ?_, Or.inl ⟨?_, rfl⟩⟩
    · intro rest'
      rw [parseLoop, if_neg hh]
      simp only [if_pos hd]
    · rcases hd with h | h <;> subst h <;> decide
  by_cases hc : arg = "-dc".toList ∨ arg = "--dc".toList
  · right
    refine ⟨{ args with domainController := value }, ?_, Or.inl ⟨?_, rfl⟩⟩
    · intro rest'
      rw [parseLoop, if_neg hh]
      simp only [if_neg hd, if_pos hc]
    · rcases hc with h | h <;> subst h <;> decide
  by_cases ho : arg = "-o".toList ∨ arg = "--output".toList
  · right
    refine ⟨{ args with outputFile := value }, ?_, Or.inl ⟨?_, rfl⟩⟩
    · intro rest'
      rw [parseLoop, if_neg hh]
      simp only [if_neg hd, if_neg hc, if_pos ho]
    · rcases ho with h | h <;> subst h <;> decide
  by_cases ht : arg = "-t".toList ∨ arg = "--threads".toList
  · cases hs : stoi value with
    | none =>
      left
      intro rest'
      rw [parseLoop, if_neg hh]
      simp only [if_neg hd, if_neg hc, if_neg ho, if_pos ht, hs]
    | some parsed =>
      right
      refine ⟨if parsed < 1 then { args with threadCount := 1 }
        else if parsed > 500 then { args with threadCount := 500 }
        else { args with threadCount := parsed }, ?_, Or.inr ⟨ht, parsed, rfl, ?_⟩⟩
      · intro rest'
        rw [parseLoop, if_neg hh]
        simp only [if_neg hd, if_neg hc, if_neg ho, if_pos ht, hs]
      · unfold clampThreads
        split
        · rfl
        · split <;> rfl
  · left
    intro rest'
    rw [parseLoop, if_neg hh]
    simp only [if_neg hd, if_neg hc, if_neg ho, if_neg ht]

theorem parseLoop_single (stoi : List Char → Option Int) (arg : List Char)
    (args : CommandLineArgs) : parseLoop stoi [arg] args = (args, false) := by
  rw [parseLoop]
  split <;> rfl

/-- The turn of the argument loop on a thread flag whose value parses. -/
theorem parseLoop_thread (stoi : List Char → Option Int) (flag value : List Char)
    (args : CommandLineArgs) (parsed : Int) (hflag : isThreadFlag flag)
    (hs : stoi value = some parsed) :
    ∃ args' : CommandLineArgs, args'.threadCount = clampThreads parsed ∧
      ∀ rest', parseLoop stoi (flag :: value :: rest') args = parseLoop stoi rest' args' := by
  have hh : ¬ (flag = "-h".toList ∨ flag = "--help".toList) := by
    rcases hflag with h | h <;> subst h <;> decide
  have hd : ¬ (flag = "-d".toList ∨ flag = "--domain".toList) := by
    rcases hflag with h | h <;> subst h <;> decide
  have hc : ¬ (flag = "-dc".toList ∨ flag = "--dc".toList) := by
    rcases hflag with h | h <;> subst h <;> decide
  have ho : ¬ (flag = "-o".toList ∨ flag = "--output".toList) := by
    rcases hflag with h | h <;> subst h <;> decide
  have ht : flag = "-t".toList ∨ flag = "--threads".toList := hflag
  refine ⟨if parsed < 1 then { args with threadCount := 1 }
    else if parsed > 500 then { args with threadCount := 500 }
    else { args with threadCount := parsed }, ?_, ?_⟩
  · unfold clampThreads
    split
    · rfl
    · split <;> rfl
  · intro rest'
    rw [parseLoop, if_neg hh]
    simp only [if_neg hd, if_neg hc, if_neg ho, if_pos ht, hs]

/-- The worker count after the loop is the one before it or the clamp of a
parsed argument. -/
theorem parseLoop_threadCount (stoi : List Char → Option Int) :
    ∀ (n : Nat) (rest : List (List Char)), rest.length ≤ n → ∀ args : CommandLineArgs,
      (parseLoop stoi rest args).1.threadCount = args.threadCount ∨
      ∃ value ∈ rest, ∃ parsed, stoi value = some parsed ∧
        (parseLoop stoi rest args).1.threadCount = clampThreads parsed := by
  intro n
  induction n using Nat.strong_induction_on with
  | _ n ih =>
    intro rest hlen args
    match rest, hlen with
    | [], _ => left; rfl
    | [arg], _ => left; rw [parseLoop_single]
    | arg :: value :: rest', hlen =>
      rcases parseLoop_pair stoi arg value args with hret | ⟨args', hgo, hcount⟩
      · left
        rw [hret]
      · rw [hgo]
        have hlen' : rest'.length ≤ n - 2 := by
          simp only [List.length_cons] at hlen
          omega
        have hlt : n - 2 < n := by
          simp only [List.length_cons] at hlen
          omega
        rcases ih (n - 2) hlt rest' hlen' args' with hsame | ⟨v, hv, p, hp, hres⟩
        · rcases hcount with ⟨_, hkeep⟩ | ⟨_, p, hp, hclamp⟩
          · left
            rw [hsame, hkeep]
          · right
            exact ⟨value, by simp, p, hp, by rw [hsame, hclamp]⟩
        · right
          exact ⟨v, by simp [hv], p, hp, hres⟩

/-- Without a thread flag among the arguments the loop leaves the worker count
as it is. -/
theorem parseLoop_no_flag (stoi : List Char → Option Int) :
    ∀ (n : Nat) (rest : List (List Char)), rest.length ≤ n → ∀ args : CommandLineArgs,
      (∀ a ∈ rest, ¬ isThreadFlag a) →
      (parseLoop stoi rest args).1.threadCount = args.threadCount := by
  intro n
  induction n using Nat.strong_induction_on with
  | _ n ih =>
    intro rest hlen args hno
    match rest, hlen, hno with
    | [], _, _ => rfl
    | [arg], _, _ => rw [parseLoop_single]
    | arg :: value :: rest', hlen, hno =>
      rcases parseLoop_pair stoi arg value args with hret | ⟨args', hgo, hcount⟩
      · rw [hret]
      · rw [hgo]
        have hlen' : rest'.length ≤ n - 2 := by
          simp only [List.length_cons] at hlen
          omega
        have hlt : n - 2 < n := by
          simp only [List.length_cons] at hlen
          omega
        rw [ih (n - 2) hlt rest' hlen' args' (fun a ha => hno a (by simp [ha]))]
        rcases hcount with ⟨_, hkeep⟩ | ⟨hflag, _⟩
        · exact hkeep
        · exact absurd hflag (hno arg (by simp))

/-- A loop that runs to its end on `front` goes on in the same way when more
arguments follow. -/
theorem parseLoop_append (stoi : List Char → Option Int) :
    ∀ (n : Nat) (front : List (List Char)), front.length ≤ n →
      ∀ (args args1 : CommandLineArgs), parseLoop stoi front args = (args1, true) →
      ∀ more, parseLoop stoi (front ++ more) args = parseLoop stoi more args1 := by
  intro n
  induction n using Nat.strong_induction_on with
  | _ n ih =>
    intro front hlen args args1 hrun more
    match front, hlen, hrun with
    | [], _, hrun =>
      have : args = args1 := by
        have h := congrArg Prod.fst hrun
        simpa [parseLoop] using h
      rw [this]
      rfl
    | [arg], _, hrun =>
      rw [parseLoop_single] at hrun
      have h := congrArg Prod.snd hrun
      simp at h
    | arg :: value :: rest', hlen, hrun =>
      rcases parseLoop_pair stoi arg value args with hret | ⟨args', hgo, _⟩
      · rw [hret] at hrun
        have h := congrArg Prod.snd hrun
        simp at h
      · rw [hgo] at hrun
        have hlen' : rest'.length ≤ n - 2 := by
          simp only [List.length_cons] at hlen
          omega
        have hlt : n - 2 < n := by
          simp only [List.length_cons] at hlen
          omega
        show parseLoop stoi (arg :: value :: (rest' ++ more)) args = _
        rw [hgo, ih (n - 2) hlt rest' hlen' args' args1 hrun more]

/-- `ParseArguments` returns the worker count the loop leaves. -/
theorem ParseArguments_count_eq (stoi : List Char → Option Int)
    (argv : List (List Char)) :
    (ParseArguments stoi argv).threadCount =
      (parseLoop stoi (argv.drop 1) {}).1.threadCount := by
  unfold ParseArguments
  simp only
  split
  · rfl
  · split
    · rfl
    · split
      · rfl
      · split <;> rfl

/-- C13. For every argument vector for which `ParseArguments` returns
`valid = true`, the worker count is between 1 and 500, so `main` never
divides by zero when it computes the batch size; the worker count is 100
when no thread flag is given, and otherwise 100 or the clamp of a parsed
value (below 1 becomes 1, above 500 becomes 500, a value in `[1, 500]` is
kept), the last thread flag deciding when the loop reaches it. -/
theorem ParseArguments_threadCount (stoi : List Char → Option Int)
    (argv : List (List Char)) :
    ((ParseArguments stoi argv).valid = true →
      1 ≤ (ParseArguments stoi argv).threadCount ∧
      (ParseArguments stoi argv).threadCount ≤ 500 ∧
      (ParseArguments stoi argv).threadCount.toNat ≠ 0 ∧
      1 ≤ (ParseArguments stoi argv).threadCount.toNat ∧
      (ParseArguments stoi argv).threadCount.toNat ≤ 500) ∧
    ((∀ a ∈ argv.drop 1, ¬ isThreadFlag a) →
      (ParseArguments stoi argv).threadCount = 100) ∧
    ((ParseArguments stoi argv).threadCount = 100 ∨
      ∃ value ∈ argv.drop 1, ∃ parsed, stoi value = some parsed ∧
        (ParseArguments stoi argv).threadCount = clampThreads parsed) ∧
    (∀ (front : List (List Char)) (args1 : CommandLineArgs) (flag value : List Char)
      (parsed : Int), argv.drop 1 = front ++ [flag, value] →
      parseLoop stoi front {} = (args1, true) → isThreadFlag flag →
      stoi value = some parsed →
      (ParseArguments stoi argv).threadCount = clampThreads parsed) ∧
    (∀ n : Int, (n < 1 → clampThreads n = 1) ∧ (n > 500 → clampThreads n = 500) ∧
      (1 ≤ n → n ≤ 500 → clampThreads n = n)) := by
  have hcount := parseLoop_threadCount stoi _ (argv.drop 1) (Nat.le_refl _) {}
  have hrange : 1 ≤ (ParseArguments stoi argv).threadCount ∧
      (ParseArguments stoi argv).threadCount ≤ 500 := by
    rw [ParseArguments_count_eq]
    rcases hcount with h | ⟨_, _, p, _, h⟩
    · rw [h]
      decide
    · rw [h]
      exact clampThreads_range p
  refine ⟨?_, ?_, ?_, ?_, ?_⟩
  · intro _
    refine ⟨hrange.1, hrange.2, ?_, ?_, ?_⟩ <;> omega
  · intro hno
    rw [ParseArguments_count_eq,
      parseLoop_no_flag stoi _ (argv.drop 1) (Nat.le_refl _) {} hno]
  · rw [ParseArguments_count_eq]
    exact hcount
  · intro front args1 flag value parsed hargv hfront hflag hs
    obtain ⟨args', hclamp, hgo⟩ := parseLoop_thread stoi flag value args1 parsed hflag hs
    rw [ParseArguments_count_eq, hargv,
      parseLoop_append stoi _ front (Nat.le_refl _) {} args1 hfront, hgo]
    exact hclamp
  · intro n
    unfold clampThreads
    refine ⟨?_, ?_, ?_⟩
    · intro h
      rw [if_pos h]
    · intro h
      rw [if_neg (by omega), if_pos h]
    · intro h1 h2
      rw [if_neg (by omega), if_neg (by omega)]

/-- C13 at concrete inputs: a complete command line with the thread value
`900` is valid with 500 workers, one with `0` is valid with 1 worker, one with
`50` keeps 50, and one without thread flag has 100 workers. -/
theorem ParseArguments_threadCount_witness :
    (ParseArguments sampleStoi ["p".toList, "-d".toList, "example.com".toList, "-dc".toList,
      "dc".toList, "-o".toList, "r.csv".toList, "-t".toList, "900".toList]).valid = true ∧
    1 ≤ (ParseArguments sampleStoi ["p".toList, "-d".toList, "example.com".toList,
      "-dc".toList, "dc".toList, "-o".toList, "r.csv".toList, "-t".toList,
      "900".toList]).threadCount ∧
    (ParseArguments sampleStoi ["p".toList, "-d".toList, "example.com".toList, "-dc".toList,
      "dc".toList, "-o".toList, "r.csv".toList, "-t".toList, "900".toList]).threadCount = 500 ∧
    (ParseArguments sampleStoi ["p".toList, "-d".toList, "example.com".toList, "-dc".toList,
      "dc".toList, "-o".toList, "r.csv".toList, "-t".toList, "0".toList]).threadCount = 1 ∧
    (ParseArguments sampleStoi ["p".toList, "-d".toList, "example.com".toList, "-dc".toList,
      "dc".toList, "-o".toList, "r.csv".toList, "-t".toList, "50".toList]).threadCount = 50 ∧
    (ParseArguments sampleStoi ["p".toList, "-d".toList, "example.com".toList, "-dc".toList,
      "dc".toList, "-o".toList, "r.csv".toList]).threadCount = 100 :=
  ⟨by decide,
   ((ParseArguments_threadCount sampleStoi ["p".toList, "-d".toList, "example.com".toList,
      "-dc".toList, "dc".toList, "-o".toList, "r.csv".toList, "-t".toList,
      "900".toList]).1 (by decide)).1,
   by decide, by decide, by decide,
   (ParseArguments_threadCount sampleStoi ["p".toList, "-d".toList, "example.com".toList,
      "-dc".toList, "dc".toList, "-o".toList, "r.csv".toList]).2.1
      (by unfold isThreadFlag; decide)⟩

/-! ## EscapeCSV is injective -/

theorem doubleQuotes_cons (c : Char) (s : WString) :
    doubleQuotes (c :: s) = (if c = '"' then ['"', '"'] else [c]) ++ doubleQuotes s := by
  unfold doubleQuotes
  rw [List.flatMap_cons]

/-- Doubling the quotes loses nothing. -/
theorem doubleQuotes_injective : ∀ s t : WString, doubleQuotes s = doubleQuotes t → s = t := by
  intro s
  induction s with
  | nil =>
    intro t h
    cases t with
    | nil => rfl
    | cons d t' =>
      rw [doubleQuotes_cons] at h
      by_cases hd : d = '"'
      · rw [if_pos hd] at h
        exact absurd h (by simp [doubleQuotes])
      · rw [if_neg hd] at h
        exact absurd h (by simp [doubleQuotes])
  | cons c s' ih =>
    intro t h
    cases t with
    | nil =>
      rw [doubleQuotes_cons] at h
      by_cases hc : c = '"'
      · rw [if_pos hc] at h
        exact absurd h (by simp [doubleQuotes])
      · rw [if_neg hc] at h
        exact absurd h (by simp [doubleQuotes])
    | cons d t' =>
      rw [doubleQuotes_cons, doubleQuotes_cons] at h
      by_cases hc : c = '"'
      · by_cases hd : d = '"'
        · rw [if_pos hc, if_pos hd] at h
          simp only [List.cons_append, List.nil_append, List.cons.injEq, true_and] at h
          rw [hc, hd, ih t' h]
        · rw [if_pos hc, if_neg hd] at h
          simp only [List.cons_append, List.nil_append, List.cons.injEq] at h
          exact absurd h.1.symm hd
      · by_cases hd : d = '"'
        · rw [if_neg hc, if_pos hd] at h
          simp only [List.cons_append, List.nil_append, List.cons.injEq] at h
          exact absurd h.1 hc
        · rw [if_neg hc, if_neg hd] at h
          simp only [List.cons_append, List.nil_append, List.cons.injEq] at h
          rw [h.1, ih t' h.2]

/-- C15. `EscapeCSV` is injective: `EscapeCSV s = EscapeCSV t` implies `s = t`.
An escaped output always contains a double quote, an unescaped one never
does, and the doubling of the quotes inside the wrapper is reversible. -/
theorem EscapeCSV_injective :
    (∀ s t : WString, EscapeCSV s = EscapeCSV t → s = t) ∧
    (∀ s : WString, (',' ∈ s ∨ '"' ∈ s ∨ '\n' ∈ s) → '"' ∈ EscapeCSV s) ∧
    (∀ s : WString, ¬ (',' ∈ s ∨ '"' ∈ s ∨ '\n' ∈ s) → '"' ∉ EscapeCSV s) ∧
    (∀ s t : WString, doubleQuotes s = doubleQuotes t → s = t) := by
  have hesc : ∀ s : WString, (',' ∈ s ∨ '"' ∈ s ∨ '\n' ∈ s) →
      EscapeCSV s = ['"'] ++ doubleQuotes s ++ ['"'] := by
    intro s h
    rw [EscapeCSV_eq, escapeField, if_pos h]
  have hraw : ∀ s : WString, ¬ (',' ∈ s ∨ '"' ∈ s ∨ '\n' ∈ s) → EscapeCSV s = s := by
    intro s h
    rw [EscapeCSV_eq, escapeField, if_neg h]
  have hin : ∀ s : WString, (',' ∈ s ∨ '"' ∈ s ∨ '\n' ∈ s) → '"' ∈ EscapeCSV s := by
    intro s h
    rw [hesc s h]
    simp
  have hout : ∀ s : WString, ¬ (',' ∈ s ∨ '"' ∈ s ∨ '\n' ∈ s) → '"' ∉ EscapeCSV s := by
    intro s h
    rw [hraw s h]
    exact fun hq => h (Or.inr (Or.inl hq))
  refine ⟨?_, hin, hout, doubleQuotes_injective⟩
  intro s t h
  by_cases hs : ',' ∈ s ∨ '"' ∈ s ∨ '\n' ∈ s
  · by_cases ht : ',' ∈ t ∨ '"' ∈ t ∨ '\n' ∈ t
    · rw [hesc s hs, hesc t ht] at h
      have h1 : doubleQuotes s ++ ['"'] = doubleQuotes t ++ ['"'] := by
        simpa using h
      exact doubleQuotes_injective s t (List.append_cancel_right h1)
    · exact absurd (h ▸ hin s hs) (hout t ht)
  · by_cases ht : ',' ∈ t ∨ '"' ∈ t ∨ '\n' ∈ t
    · exact absurd (h ▸ hin t ht) (hout s hs)
    · rw [hraw s hs, hraw t ht] at h
      exact h

/-- C15 at concrete inputs: two different values have different escaped
fields, and equal escaped fields come from equal values. -/
theorem EscapeCSV_injective_witness :
    EscapeCSV "a,b".toList = EscapeCSV "a,b".toList ∧ "a,b".toList = "a,b".toList ∧
    '"' ∈ EscapeCSV "a,b".toList ∧ '"' ∉ EscapeCSV "ab".toList :=
  ⟨rfl, EscapeCSV_injective.1 "a,b".toList "a,b".toList rfl,
   EscapeCSV_injective.2.1 "a,b".toList (by decide),
   EscapeCSV_injective.2.2.1 "ab".toList (by decide)⟩

/-! ## The bytes of the rows in the file -/

/-- When the platform conversion returns the bytes of a non-empty line
followed by the terminating zero, `WStringToUTF8` returns those bytes. -/
theorem WStringToUTF8_of_terminated (conv : WString → List Nat) (line : WString)
    (bytes : List Nat) (hne : line ≠ []) (h : conv line = bytes ++ [0]) :
    WStringToUTF8 conv line = bytes := by
  unfold WStringToUTF8
  have hemp : line.isEmpty = false := by
    cases line with
    | nil => exact absurd rfl hne
    | cons _ _ => rfl
  have hlen : ¬ (bytes ++ [0]).length ≤ 0 := by simp
  have hlast : ¬ (bytes ++ [0]).isEmpty = true ∧ (bytes ++ [0]).getLast? = some 0 := by
    refine ⟨by simp, List.getLast?_concat bytes⟩
  simp only [hemp, Bool.false_eq_true, if_false, h, hlen, if_pos hlast]
  exact List.dropLast_concat

theorem utf8Bytes_append (s t : WString) : utf8Bytes (s ++ t) = utf8Bytes s ++ utf8Bytes t := by
  unfold utf8Bytes
  rw [List.flatMap_append]

theorem utf8Bytes_newline (row : WString) :
    utf8Bytes (row ++ ['\n']) = utf8Bytes row ++ [10] := by
  rw [utf8Bytes_append]
  rfl

/-- The conversion of a line without zero character, under the documented
behaviour of the platform. -/
theorem WStringToUTF8_line (conv : WString → List Nat)
    (hconv : ∀ line : WString, Char.ofNat 0 ∉ line → conv line = utf8Bytes line ++ [0])
    (row : WString) (hrow : Char.ofNat 0 ∉ row) :
    WStringToUTF8 conv (row ++ ['\n']) = utf8Bytes row ++ [10] := by
  have hline : Char.ofNat 0 ∉ row ++ ['\n'] := by
    intro h
    rcases List.mem_append.1 h with h | h
    · exact hrow h
    · simp at h
  rw [WStringToUTF8_of_terminated conv (row ++ ['\n']) (utf8Bytes (row ++ ['\n']))
    (by simp) (hconv _ hline), utf8Bytes_newline]

theorem platformConv_of_no_zero (line : WString) (h : Char.ofNat 0 ∉ line) :
    platformConv line = utf8Bytes line ++ [0] := by
  unfold platformConv
  have : line.takeWhile (fun c => c ≠ Char.ofNat 0) = line := by
    rw [List.takeWhile_eq_self_iff]
    intro x hx
    have : x ≠ Char.ofNat 0 := fun hx0 => h (hx0 ▸ hx)
    simpa using this
  rw [this]

theorem mem_doubleQuotes (x : Char) (s : WString) (h : x ∈ doubleQuotes s) : x ∈ s := by
  unfold doubleQuotes at h
  obtain ⟨a, ha, hx⟩ := List.mem_flatMap.1 h
  by_cases hq : a = '"'
  · rw [if_pos hq] at hx
    have : x = a := by
      rw [hq]
      simpa using hx
    rw [this]
    exact ha
  · rw [if_neg hq] at hx
    have : x = a := by simpa using hx
    rw [this]
    exact ha

theorem mem_EscapeCSV (x : Char) (s : WString) (h : x ∈ EscapeCSV s) : x ∈ s ∨ x = '"' := by
  rw [EscapeCSV_eq] at h
  unfold escapeField at h
  split at h
  · rcases List.mem_append.1 h with h | h
    · rcases List.mem_append.1 h with h | h
      · right
        simpa using h
      · left
        exact mem_doubleQuotes x s h
    · right
      simpa using h
  · left
    exact h

/-- A character other than the comma, the double quote and the backslash that
occurs in no field occurs in no row. -/
theorem expectedRows_avoid (ch : Char) (hc : ch ≠ ',') (hq : ch ≠ '"') (hb : ch ≠ '\\')
    (computer : ComputerInfo) (users : List UserInfo) (hf : fieldsAvoid ch computer users) :
    ∀ row ∈ expectedRows computer users, ch ∉ row := by
  obtain ⟨hh, hos, hus⟩ := hf
  have hesc : ch ∉ EscapeCSV computer.operatingSystem := by
    intro h
    rcases mem_EscapeCSV ch _ h with h | h
    · exact hos h
    · exact hq h
  intro row hrow hmem
  unfold expectedRows at hrow
  split at hrow
  · have hr : row = computer.hostname ++ [','] ++ EscapeCSV computer.operatingSystem ++
        [',', ','] := by simpa using hrow
    rw [hr] at hmem
    simp only [List.mem_append, List.mem_cons, List.mem_singleton, List.not_mem_nil,
      or_false] at hmem
    rcases hmem with ((h | h) | h) | h
    · exact hh h
    · exact hc h
    · exact hesc h
    · rcases h with h | h <;> exact hc h
  · obtain ⟨u, hu, hr⟩ := List.mem_map.1 hrow
    obtain ⟨h1, h2, h3⟩ := hus u hu
    rw [← hr] at hmem
    simp only [List.mem_append, List.mem_cons, List.mem_singleton, List.not_mem_nil,
      or_false] at hmem
    rcases hmem with (((((h | h) | h) | h) | h) | h) | h
    · exact hh h
    · exact hc h
    · exact hesc h
    · exact hc h
    · exact h1 h
    · exact hc h
    · rcases h with (h | (h | h) | h) | h
      · exact hq h
      · exact h3 h
      · exact hb h
      · exact h2 h
      · exact hq h

theorem zero_ne_separators :
    Char.ofNat 0 ≠ ',' ∧ Char.ofNat 0 ≠ '"' ∧ Char.ofNat 0 ≠ '\\' := by decide

/-- The bytes one `AddEntry` call appends to an open sink, under the
documented behaviour of the platform conversion and for strings without zero
character: the UTF-8 bytes of each row of the specification followed by the
newline byte. -/
theorem AddEntry_bytes (conv : WString → List Nat) (rg : ReportGenerator)
    (computer : ComputerInfo) (users : List UserInfo) (hopen : rg.is_open = true)
    (hconv : ∀ line : WString, Char.ofNat 0 ∉ line → conv line = utf8Bytes line ++ [0])
    (hzero : fieldsAvoid (Char.ofNat 0) computer users) :
    (AddEntry conv rg computer users).m_outputFile =
      rg.m_outputFile ++
        ((expectedRows computer users).map fun row => utf8Bytes row ++ [10]).flatten := by
  rw [AddEntry_output conv rg computer users hopen, lines_eq_expectedRows, List.map_map]
  have hrows := expectedRows_avoid (Char.ofNat 0) zero_ne_separators.1
    zero_ne_separators.2.1 zero_ne_separators.2.2 computer users hzero
  have hmap : (expectedRows computer users).map
      (WStringToUTF8 conv ∘ fun row => row ++ ['\n']) =
      (expectedRows computer users).map fun row => utf8Bytes row ++ [10] := by
    apply List.map_congr_left
    intro row hrow
    exact WStringToUTF8_line conv hconv row (hrows row hrow)
  rw [hmap]

/-- C2. For every host record and every session list (strings without zero
character, as null-terminated strings are), `AddEntry` on an open sink, with
the platform conversion behaving as documented, appends to the output exactly
the UTF-8 bytes of one row `hostname,EscapeCSV(os),,` and a newline when the
session list is empty, and otherwise of exactly one row
`hostname,EscapeCSV(os),sid_i,"domain_i\user_i"` and a newline per session, in
the order of the session list. -/
theorem AddEntry_rows (conv : WString → List Nat) (rg : ReportGenerator)
    (computer : ComputerInfo) (users : List UserInfo) (hopen : rg.is_open = true)
    (hconv : ∀ line : WString, Char.ofNat 0 ∉ line → conv line = utf8Bytes line ++ [0])
    (hzero : fieldsAvoid (Char.ofNat 0) computer users) :
    (AddEntry conv rg computer users).m_outputFile =
      rg.m_outputFile ++
        ((expectedRows computer users).map fun row => utf8Bytes row ++ [10]).flatten ∧
    (users = [] →
      (AddEntry conv rg computer users).m_outputFile =
        rg.m_outputFile ++
          (utf8Bytes (computer.hostname ++ [','] ++ EscapeCSV computer.operatingSystem ++
            [',', ',']) ++ [10])) ∧
    (users ≠ [] → (expectedRows computer users).length = users.length) ∧
    (∀ (i : Nat) (u : UserInfo), users[i]? = some u →
      (expectedRows computer users)[i]? =
        some (computer.hostname ++ [','] ++ EscapeCSV computer.operatingSystem ++ [','] ++
          u.sid ++ [','] ++ (['"'] ++ (u.domainName ++ ['\\'] ++ u.userName) ++ ['"']))) := by
  have hbytes := AddEntry_bytes conv rg computer users hopen hconv hzero
  refine ⟨hbytes, ?_, ?_, ?_⟩
  · intro h
    rw [hbytes]
    simp [expectedRows, h]
  · intro h
    simp [expectedRows, h]
  · intro i u hu
    have hne : users ≠ [] := by
      intro h
      rw [h] at hu
      simp at hu
    simp [expectedRows, hne, hu]

/-- C2 at concrete inputs: on an open sink with the platform conversion, a
computer with two sessions gets exactly its two rows, and a computer without
session exactly one row with empty last fields. -/
theorem AddEntry_rows_witness :
    sampleSink.is_open = true ∧
    (AddEntry platformConv sampleSink samplePC sampleUsers).m_outputFile =
      "PC1.a.b,\"W,X\",S-1,\"D\\u\"\nPC1.a.b,\"W,X\",S-2,\"E\\v\"\n".toList.map Char.toNat ∧
    (AddEntry platformConv sampleSink samplePC []).m_outputFile =
      "PC1.a.b,\"W,X\",,\n".toList.map Char.toNat :=
  ⟨rfl,
   (AddEntry_rows platformConv sampleSink samplePC sampleUsers rfl platformConv_of_no_zero
      (by unfold fieldsAvoid; decide)).1.trans (by decide),
   ((AddEntry_rows platformConv sampleSink samplePC [] rfl platformConv_of_no_zero
      (by unfold fieldsAvoid; decide)).2.1 rfl).trans (by decide)⟩

/-! ## Statistics and rows over a run -/

theorem writtenLines_cons (call : ComputerInfo × List UserInfo)
    (calls : List (ComputerInfo × List UserInfo)) :
    writtenLines (call :: calls) =
      ((expectedRows call.1 call.2).map fun row => row ++ ['\n']) ++ writtenLines calls := by
  simp [writtenLines]

/-- The bytes a sequence of calls appends to an open sink, under the
documented behaviour of the platform conversion and for strings without zero
character: the UTF-8 bytes of the rows of the calls, each with its newline, in
call order. -/
theorem runEntries_bytes (conv : WString → List Nat)
    (hconv : ∀ line : WString, Char.ofNat 0 ∉ line → conv line = utf8Bytes line ++ [0]) :
    ∀ (calls : List (ComputerInfo × List UserInfo)) (rg : ReportGenerator),
      rg.is_open = true →
      (∀ call ∈ calls, fieldsAvoid (Char.ofNat 0) call.1 call.2) →
      (runEntries conv rg calls).m_outputFile =
        rg.m_outputFile ++ ((writtenLines calls).map utf8Bytes).flatten := by
  intro calls
  induction calls with
  | nil => intro rg _ _; simp [runEntries, writtenLines]
  | cons call calls ih =>
    intro rg hopen hzero
    rw [runEntries_cons, ih _ (by rw [AddEntry_is_open]; exact hopen)
      (fun c hc => hzero c (List.mem_cons_of_mem _ hc)),
      AddEntry_bytes conv rg call.1 call.2 hopen hconv (hzero call (List.mem_cons_self _ _)),
      writtenLines_cons, List.map_append, List.flatten_append, List.map_map, List.append_assoc]
    congr 2
    apply congrArg
    apply List.map_congr_left
    intro row _
    exact (utf8Bytes_newline row).symm

theorem utf8Char_no_newline (c : Char) (hc : c ≠ '\n') : 10 ∉ utf8Char c := by
  have hne : c.toNat ≠ 10 := by
    intro h
    apply hc
    have := Char.ofNat_toNat c
    rw [h] at this
    exact this.symm
  unfold utf8Char
  split
  · simp
    omega
  · split
    · simp
      omega
    · split
      · simp
        omega
      · simp
        omega

theorem count_newline_utf8Bytes (s : WString) (hs : '\n' ∉ s) : (utf8Bytes s).count 10 = 0 := by
  rw [List.count_eq_zero]
  intro h
  unfold utf8Bytes at h
  obtain ⟨c, hc, hmem⟩ := List.mem_flatMap.1 h
  exact utf8Char_no_newline c (fun hcn => hs (hcn ▸ hc)) hmem

/-- The newline bytes among the bytes of rows that contain no newline
character: one per row. -/
theorem count_newline_rows :
    ∀ rows : List WString, (∀ row ∈ rows, '\n' ∉ row) →
      ((rows.map fun row => utf8Bytes (row ++ ['\n'])).flatten).count 10 = rows.length := by
  intro rows
  induction rows with
  | nil => intro _; rfl
  | cons row rows ih =>
    intro h
    rw [List.map_cons, List.flatten_cons, List.count_append, ih
      (fun r hr => h r (List.mem_cons_of_mem _ hr)), utf8Bytes_newline, List.count_append,
      count_newline_utf8Bytes row (h row (List.mem_cons_self _ _))]
    simp
    omega

theorem newline_ne_separators : '\n' ≠ ',' ∧ '\n' ≠ '"' ∧ '\n' ≠ '\\' := by decide

/-- The newline bytes of the written lines of calls whose strings contain no
newline character: one per line. -/
theorem count_newline_writtenLines :
    ∀ calls : List (ComputerInfo × List UserInfo),
      (∀ call ∈ calls, fieldsAvoid '\n' call.1 call.2) →
      (((writtenLines calls).map utf8Bytes).flatten).count 10 = (writtenLines calls).length := by
  intro calls
  induction calls with
  | nil => intro _; rfl
  | cons call calls ih =>
    intro h
    have hrows := expectedRows_avoid '\n' newline_ne_separators.1 newline_ne_separators.2.1
      newline_ne_separators.2.2 call.1 call.2 (h call (List.mem_cons_self _ _))
    rw [writtenLines_cons, List.map_append, List.flatten_append, List.count_append,
      ih (fun c hc => h c (List.mem_cons_of_mem _ hc)), List.map_map, List.length_append,
      List.length_map]
    have := count_newline_rows (expectedRows call.1 call.2) hrows
    rw [show (utf8Bytes ∘ fun row : WString => row ++ ['\n']) =
      fun row => utf8Bytes (row ++ ['\n']) from rfl, this]

/-- C12, the claim as stated fails: on a sink that is only constructed, the
stream is not open, so the calls for host `A` with 2 sessions, host `B` with
none and unreachable host `C` leave the counters at 3, 1 and 2 while no row at
all is written, where the claim counts 2 + (3 - 1) = 4 rows. -/
theorem runEntries_constructed_no_rows :
    (runEntries platformConv ReportGenerator.construct fleetCalls).GetTotalComputers = 3 ∧
    (runEntries platformConv ReportGenerator.construct fleetCalls).GetComputersWithUsers = 1 ∧
    (runEntries platformConv ReportGenerator.construct fleetCalls).GetTotalUsers = 2 ∧
    (runEntries platformConv ReportGenerator.construct fleetCalls).m_outputFile = [] ∧
    (runEntries platformConv ReportGenerator.construct fleetCalls).GetTotalUsers +
      ((runEntries platformConv ReportGenerator.construct fleetCalls).GetTotalComputers -
        (runEntries platformConv ReportGenerator.construct fleetCalls).GetComputersWithUsers)
      = 4 := by
  rw [fleetCalls_eq]
  decide

/-- C12, amended. For every sequence of `AddEntry` calls applied to a sink
whose counters are 0 and whose stream is open, as after the constructor and a
successful `Initialize` (strings without zero character, the platform
conversion behaving as documented, the calls and sessions few enough to be
counted in an `int`): total of computers = number of calls, computers with
users = number of calls with a non-empty session list, total of users = sum
of the lengths of the session lists; the bytes appended to the file are the
UTF-8 bytes of the rows of the calls, each with its newline, in call order;
these rows number total of users + (total of computers - computers with
users), and when no string contains a newline character this is the number of
newline bytes appended. -/
theorem runEntries_statistics (conv : WString → List Nat) (rg : ReportGenerator)
    (calls : List (ComputerInfo × List UserInfo))
    (hfresh : rg.m_totalComputers = 0 ∧ rg.m_computersWithUsers = 0 ∧ rg.m_totalUsers = 0)
    (hopen : rg.is_open = true)
    (hconv : ∀ line : WString, Char.ofNat 0 ∉ line → conv line = utf8Bytes line ++ [0])
    (hzero : ∀ call ∈ calls, fieldsAvoid (Char.ofNat 0) call.1 call.2)
    (hroom : (calls.length : Int) < 2 ^ 31 ∧
      (((calls.map fun call => call.2.length).sum : Nat) : Int) < 2 ^ 31) :
    (runEntries conv rg calls).GetTotalComputers = calls.length ∧
    (runEntries conv rg calls).GetComputersWithUsers =
      (calls.filter fun call => !call.2.isEmpty).length ∧
    (runEntries conv rg calls).GetTotalUsers =
      ((calls.map fun call => call.2.length).sum : Nat) ∧
    (runEntries conv rg calls).m_outputFile =
      rg.m_outputFile ++ ((writtenLines calls).map utf8Bytes).flatten ∧
    ((writtenLines calls).length : Int) =
      (runEntries conv rg calls).GetTotalUsers +
        ((runEntries conv rg calls).GetTotalComputers -
          (runEntries conv rg calls).GetComputersWithUsers) ∧
    ((∀ call ∈ calls, fieldsAvoid '\n' call.1 call.2) →
      ((((runEntries conv rg calls).m_outputFile.drop rg.m_outputFile.length).count 10 : Nat)
          : Int) =
        (runEntries conv rg calls).GetTotalUsers +
          ((runEntries conv rg calls).GetTotalComputers -
            (runEntries conv rg calls).GetComputersWithUsers)) := by
  obtain ⟨z1, z2, z3⟩ := hfresh
  obtain ⟨r1, r2, r3⟩ := runEntries_counters conv calls rg (by rw [z1]; norm_num)
    (by rw [z1]; omega) (by rw [z2]; norm_num) (by rw [z2]; omega) (by rw [z3]; norm_num)
    (by rw [z3]; omega)
  have hbytes := runEntries_bytes conv hconv calls rg hopen hzero
  have hcount : ((writtenLines calls).length : Int) =
      (((calls.map fun call => call.2.length).sum : Nat) : Int) +
        ((calls.length : Int) - ((calls.filter fun call => !call.2.isEmpty).length : Int)) := by
    have h := length_writtenLines calls
    have hcast : ((writtenLines calls).length : Int) +
        ((calls.filter fun call => !call.2.isEmpty).length : Int) =
        (((calls.map fun call => call.2.length).sum : Nat) : Int) + (calls.length : Int) := by
      exact_mod_cast h
    omega
  unfold ReportGenerator.GetTotalComputers ReportGenerator.GetComputersWithUsers
    ReportGenerator.GetTotalUsers
  rw [r1, r2, r3, z1, z2, z3, hbytes]
  refine ⟨by simp, by simp, by simp, rfl, ?_, ?_⟩
  · rw [hcount]
    simp
  · intro hnl
    rw [List.drop_left, count_newline_writtenLines calls hnl, hcount]
    simp

/-- C12 amended, at the input of the specification: host `A` with 2 sessions,
host `B` with none and host `C` unreachable, scanned as one batch on a
constructed and successfully initialised sink, give 3 computers, 1 computer
with users, 2 users, and a file that holds the header followed by exactly the
4 rows. -/
theorem runEntries_statistics_witness :
    ProcessComputerBatch fleetApi platformConv
      (ReportGenerator.construct.Initialize true true).1 fleet 0 3 =
      runEntries platformConv (ReportGenerator.construct.Initialize true true).1 fleetCalls ∧
    (runEntries platformConv (ReportGenerator.construct.Initialize true true).1
      fleetCalls).GetTotalComputers = 3 ∧
    (runEntries platformConv (ReportGenerator.construct.Initialize true true).1
      fleetCalls).GetComputersWithUsers = 1 ∧
    (runEntries platformConv (ReportGenerator.construct.Initialize true true).1
      fleetCalls).GetTotalUsers = 2 ∧
    (runEntries platformConv (ReportGenerator.construct.Initialize true true).1
      fleetCalls).m_outputFile =
      [0xEF, 0xBB, 0xBF] ++
        ("Computer,OS,SID,Logon User\n".toList ++ "A,W,S-1,\"D\\u\"\n".toList ++
          "A,W,S-3,\"E\\v\"\n".toList ++ "B,W,,\n".toList ++ "C,W,,\n".toList).map
          Char.toNat ∧
    (((runEntries platformConv (ReportGenerator.construct.Initialize true true).1
      fleetCalls).m_outputFile.drop
        (ReportGenerator.construct.Initialize true true).1.m_outputFile.length).count 10 : Int)
      = 2 + (3 - 1) := by
  have h := runEntries_statistics platformConv
    (ReportGenerator.construct.Initialize true true).1 fleetCalls (by decide) (by decide)
    platformConv_of_no_zero (by rw [fleetCalls_eq]; unfold fieldsAvoid; decide)
    (by rw [fleetCalls_eq]; decide)
  obtain ⟨h1, h2, h3, h4, _, h6⟩ := h
  have h6' := h6 (by rw [fleetCalls_eq]; unfold fieldsAvoid; decide)
  refine ⟨batchLoop_eq fleetApi platformConv fleet 3 0 _ (by decide), ?_, ?_, ?_, ?_, ?_⟩
  · rw [h1, fleetCalls_eq]
    decide
  · rw [h2, fleetCalls_eq]
    decide
  · rw [h3, fleetCalls_eq]
    decide
  · rw [h4, fleetCalls_eq]
    decide
  · rw [h6', h3, h1, h2, fleetCalls_eq]
    decide

end UserScanner
